import Mathlib

/-!
Verification of `loki.cpp` (loki-project/monero, `src/common/loki.cpp`).

This file is a shallow embedding of the three functions implemented in
`src/common/loki.cpp`:

* `loki::round` — round to nearest, ties away from zero (gnulib `round`),
* `loki::exp2` — base-2 exponential with a 257-entry table (gnulib `exp2`),
* `loki::hex64_to_base32z` with its helper `base32z_encode` — hex to base32z
  string encoder.

The first two operate on IEEE-754 binary64 values.  We model a double as a
rational number and model every individual C arithmetic operation `a ⊕ b` as
`fl (a ⊕ b)` where `fl : ℚ → ℚ` is IEEE-754 round-to-nearest-even at 53 bits
of precision (with subnormal rounding below `2^-1022`).  Overflow to infinity
is not modelled inside `fl`; every value arising in the statements proved
here stays far below the overflow threshold, and the two saturating branches
of `exp2` are modelled explicitly (`DVal.posInf`).

The encoder operates on bytes and is modelled over `ℕ` with explicit
`% 2^32` wrapping where the C `int` accumulator can exceed 32 bits.  The
`std::string` construction from the 64-byte stack buffer is modelled
faithfully, including the overread past the unterminated buffer when all 64
bytes have been written (see `loki.hex64_to_base32z`).
-/

set_option maxRecDepth 16000

/-- Round a rational to the nearest integer, ties to even.  This is the IEEE
rounding of a real number to an integer used inside `fl`. -/
def rne (q : ℚ) : ℤ :=
  let f := ⌊q⌋
  let r := q - (f : ℚ)
  if r < 1/2 then f
  else if 1/2 < r then f + 1
  else if f % 2 = 0 then f else f + 1

/-- Floor of the base-2 logarithm of a natural number, by structural recursion
on a fuel argument (so that kernel reduction works); `nlog2 n n` computes
the floor of log2 of any positive `n`. -/
def nlog2 : ℕ → ℕ → ℕ
  | 0, _ => 0
  | fuel + 1, n => if n ≤ 1 then 0 else nlog2 fuel (n / 2) + 1

/-- Binade exponent of a nonzero rational: the unique `e` with
`2^e ≤ |q| < 2^(e+1)`. -/
def ilog2 (q : ℚ) : ℤ :=
  let np := q.num.natAbs
  let e0 : ℤ := (nlog2 np np : ℤ) - (nlog2 q.den q.den : ℤ)
  if |q| < (2:ℚ) ^ e0 then e0 - 1 else e0

/-- IEEE-754 binary64 rounding (round to nearest, ties to even) modelled
exactly on `ℚ`: the result is the 53-bit floating-point value nearest to `q`
(subnormal below `2^-1022`, and no overflow clamp, see the file comment). -/
def fl (q : ℚ) : ℚ :=
  if q = 0 then 0
  else
    let s : ℚ := if 0 < q then 1 else -1
    let a := |q|
    let e := ilog2 q
    if e < -1022 then s * (rne (a * (2:ℚ) ^ (1074:ℤ)) : ℚ) * (2:ℚ) ^ (-1074:ℤ)
    else s * (rne (a * (2:ℚ) ^ (52 - e)) : ℚ) * (2:ℚ) ^ (e - 52)

/-- The value of a C cast `(int)` applied to a double: truncation toward
zero.  (All casts performed by `exp2` are on integer-valued doubles that fit
easily in 32 bits, so the ℤ model is faithful.) -/
def c_trunc (q : ℚ) : ℤ := if 0 ≤ q then ⌊q⌋ else -⌊-q⌋

/-- Result type of `loki::exp2`: either a finite double (modelled in ℚ) or
`HUGE_VAL` (positive infinity) returned by the overflow branch. -/
inductive DVal where
  | fin (q : ℚ)
  | posInf
  deriving DecidableEq

namespace loki

/-- `TWO_MANT_DIG` from `loki::round`: `(double)(1U << 10) * (1U << 10) *
(1U << 10) * (1U << 11) * (1U << 11)`, i.e. `2^(DBL_MANT_DIG-1) = 2^52`
computed as in the source ((53-1+k)/5 for k = 0..4 gives 10,10,10,11,11). -/
def TWO_MANT_DIG : ℚ :=
  ((2 ^ 10 : ℕ) : ℚ) * ((2 ^ 10 : ℕ) : ℚ) * ((2 ^ 10 : ℕ) : ℚ) *
    ((2 ^ 11 : ℕ) : ℚ) * ((2 ^ 11 : ℕ) : ℚ)

/-- `loki::round` from loki.cpp: round to nearest, ties away from zero.
Every C double operation is wrapped in `fl`.  `MINUS_ZERO` is modelled as `0`
(ℚ does not distinguish signed zeros; no claim depends on the sign of zero). -/
def round (x : ℚ) : ℚ :=
  let z := x
  if 0 < z then
    if z < 0.5 then 0
    else if z < TWO_MANT_DIG then
      let y := fl (z + 0.5)
      let z1 := fl (y + TWO_MANT_DIG)
      let z2 := fl (z1 - TWO_MANT_DIG)
      if y < z2 then fl (z2 - 1) else z2
    else z
  else if z < 0 then
    if -0.5 < z then 0
    else if -TWO_MANT_DIG < z then
      let y := fl (z - 0.5)
      let z1 := fl (y - TWO_MANT_DIG)
      let z2 := fl (z1 + TWO_MANT_DIG)
      if z2 < y then fl (z2 + 1) else z2
    else z
  else z

/-- The double constant `LOG2_BY_256` (log(2)/256) of loki.cpp: the decimal
literal converted to the nearest double. -/
def LOG2_BY_256 : ℚ := fl 0.00270760617406228636491106297444600221904

/-- `TANH_COEFF_1` of loki.cpp. -/
def TANH_COEFF_1 : ℚ := fl 1.0

/-- `TANH_COEFF_3` of loki.cpp (the only other coefficients used by the
computation are 1, 3 and 5; coefficients 7..15 are defined but unused in the
truncated series). -/
def TANH_COEFF_3 : ℚ := -fl 0.333333333333333333333333333333333333334

/-- `TANH_COEFF_5` of loki.cpp. -/
def TANH_COEFF_5 : ℚ := fl 0.133333333333333333333333333333333333334

/-- The 257-entry lookup table from loki.cpp: exp_table[i] = exp((i - 128) * log(2)/256).
Each decimal literal from the source is converted to the nearest IEEE double by fl,
exactly as a C compiler converts a double literal. -/
def exp_table : List ℚ := [
  fl 0.707106781186547524400844362104849039284,
  fl 0.709023942160207598920563322257676190836,
  fl 0.710946301084582779904674297352120049962,
  fl 0.71287387205274715340350157671438300618,
  fl 0.714806669195985005617532889137569953044,
  fl 0.71674470668389442125974978427737336719,
  fl 0.71868799872449116280161304224785251353,
  fl 0.720636559564312831364255957304947586072,
  fl 0.72259040348852331001850312073583545284,
  fl 0.724549544821017490259402705487111270714,
  fl 0.726513997924526282423036245842287293786,
  fl 0.728483777200721910815451524818606761737,
  fl 0.730458897090323494325651445155310766577,
  fl 0.732439372073202913296664682112279175616,
  fl 0.734425216668490963430822513132890712652,
  fl 0.736416445434683797507470506133110286942,
  fl 0.738413072969749655693453740187024961962,
  fl 0.740415113911235885228829945155951253966,
  fl 0.742422582936376250272386395864403155277,
  fl 0.744435494762198532693663597314273242753,
  fl 0.746453864145632424600321765743336770838,
  fl 0.748477705883617713391824861712720862423,
  fl 0.750507034813212760132561481529764324813,
  fl 0.752541865811703272039672277899716132493,
  fl 0.75458221379671136988300977551659676571,
  fl 0.756628093726304951096818488157633113612,
  fl 0.75867952059910734940489114658718937343,
  fl 0.760736509454407291763130627098242426467,
  fl 0.762799075372269153425626844758470477304,
  fl 0.76486723347364351194254345936342587308,
  fl 0.766940998920478000900300751753859329456,
  fl 0.769020386915828464216738479594307884331,
  fl 0.771105412703970411806145931045367420652,
  fl 0.773196091570510777431255778146135325272,
  fl 0.77529243884249997956151370535341912283,
  fl 0.777394469888544286059157168801667390437,
  fl 0.779502200118918483516864044737428940745,
  fl 0.781615644985678852072965367573877941354,
  fl 0.783734819982776446532455855478222575498,
  fl 0.78585974064617068462428149076570281356,
  fl 0.787990422553943243227635080090952504452,
  fl 0.790126881326412263402248482007960521995,
  fl 0.79226913262624686505993407346567890838,
  fl 0.794417192158581972116898048814333564685,
  fl 0.796571075671133448968624321559534367934,
  fl 0.798730798954313549131410147104316569576,
  fl 0.800896377841346676896923120795476813684,
  fl 0.803067828208385462848443946517563571584,
  fl 0.805245165974627154089760333678700291728,
  fl 0.807428407102430320039984581575729114268,
  fl 0.809617567597431874649880866726368203972,
  fl 0.81181266350866441589760797777344082227,
  fl 0.814013710928673883424109261007007338614,
  fl 0.816220725993637535170713864466769240053,
  fl 0.818433724883482243883852017078007231025,
  fl 0.82065272382200311435413206848451310067,
  fl 0.822877739076982422259378362362911222833,
  fl 0.825108786960308875483586738272485101678,
  fl 0.827345883828097198786118571797909120834,
  fl 0.829589046080808042697824787210781231927,
  fl 0.831838290163368217523168228488195222638,
  fl 0.834093632565291253329796170708536192903,
  fl 0.836355089820798286809404612069230711295,
  fl 0.83862267850893927589613232455870870518,
  fl 0.84089641525371454303112547623321489504,
  fl 0.84317631672419664796432298771385230143,
  fl 0.84546239963465259098692866759361830709,
  fl 0.84775468074466634749045860363936420312,
  fl 0.850053176859261734750681286748751167545,
  fl 0.852357904829025611837203530384718316326,
  fl 0.854668881550231413551897437515331498025,
  fl 0.856986123964963019301812477839166009452,
  fl 0.859309649061238957814672188228156252257,
  fl 0.861639473873136948607517116872358729753,
  fl 0.863975615480918781121524414614366207052,
  fl 0.866318091011155532438509953514163469652,
  fl 0.868666917636853124497101040936083380124,
  fl 0.871022112577578221729056715595464682243,
  fl 0.873383693099584470038708278290226842228,
  fl 0.875751676515939078050995142767930296012,
  fl 0.878126080186649741556080309687656610647,
  fl 0.880506921518791912081045787323636256171,
  fl 0.882894217966636410521691124969260937028,
  fl 0.885287987031777386769987907431242017412,
  fl 0.88768824626326062627527960009966160388,
  fl 0.89009501325771220447985955243623523504,
  fl 0.892508305659467490072110281986409916153,
  fl 0.8949281411607004980029443898876582985,
  fl 0.897354537501553593213851621063890907178,
  fl 0.899787512470267546027427696662514569756,
  fl 0.902227083903311940153838631655504844215,
  fl 0.904673269685515934269259325789226871994,
  fl 0.907126087750199378124917300181170171233,
  fl 0.909585556079304284147971563828178746372,
  fl 0.91205169270352665549806275316460097744,
  fl 0.914524515702448671545983912696158354092,
  fl 0.91700404320467123174354159479414442804,
  fl 0.919490293387946858856304371174663918816,
  fl 0.921983284479312962533570386670938449637,
  fl 0.92448303475522546419252726694739603678,
  fl 0.92698956254169278419622653516884831976,
  fl 0.929502886214410192307650717745572682403,
  fl 0.932023024198894522404814545597236289343,
  fl 0.934549994970619252444512104439799143264,
  fl 0.93708381705514995066499947497722326722,
  fl 0.93962450902828008902058735120448448827,
  fl 0.942172089516167224843810351983745154882,
  fl 0.944726577195469551733539267378681531548,
  fl 0.947287990793482820670109326713462307376,
  fl 0.949856349088277632361251759806996099924,
  fl 0.952431670908837101825337466217860725517,
  fl 0.955013975135194896221170529572799135168,
  fl 0.957603280698573646936305635147915443924,
  fl 0.960199606581523736948607188887070611744,
  fl 0.962802971818062464478519115091191368377,
  fl 0.965413395493813583952272948264534783197,
  fl 0.968030896746147225299027952283345762418,
  fl 0.970655494764320192607710617437589705184,
  fl 0.973287208789616643172102023321302921373,
  fl 0.97592605811548914795551023340047499377,
  fl 0.978572062087700134509161125813435745597,
  fl 0.981225240104463713381244885057070325016,
  fl 0.983885611616587889056366801238014683926,
  fl 0.98655319612761715646797006813220671315,
  fl 0.989228013193975484129124959065583667775,
  fl 0.99191008242510968492991311132615581644,
  fl 0.994599423483633175652477686222166314457,
  fl 0.997296056085470126257659913847922601123,
  fl 1.0,
  fl 1.00271127505020248543074558845036204047,
  fl 1.0054299011128028213513839559347998147,
  fl 1.008155898118417515783094890817201039276,
  fl 1.01088928605170046002040979056186052439,
  fl 1.013630084951489438840258929063939929597,
  fl 1.01637831491095303794049311378629406276,
  fl 1.0191339960777379496848780958207928794,
  fl 1.02189714865411667823448013478329943978,
  fl 1.02466779289713564514828907627081492763,
  fl 1.0274459491187636965388611939222137815,
  fl 1.030231637686041012871707902453904567093,
  fl 1.033024879021228422500108283970460918086,
  fl 1.035825693601957120029983209018081371844,
  fl 1.03863410196137879061243669795463973258,
  fl 1.04145012468831614126454607901189312648,
  fl 1.044273782427413840321966478739929008784,
  fl 1.04710509587928986612990725022711224056,
  fl 1.04994408580068726608203812651590790906,
  fl 1.05279077300462632711989120298074630319,
  fl 1.05564517836055715880834132515293865216,
  fl 1.058507322794512690105772109683716645074,
  fl 1.061377227289262080950567678003883726294,
  fl 1.06425491288446454978861125700158022068,
  fl 1.06714040067682361816952112099280916261,
  fl 1.0700337118202417735424119367576235685,
  fl 1.072934867525975551385035450873827585343,
  fl 1.075843889062791037803228648476057074063,
  fl 1.07876079775711979374068003743848295849,
  fl 1.081685614993215201942115594422531125643,
  fl 1.08461836221330923781610517190661434161,
  fl 1.087559060917769665346797830944039707867,
  fl 1.09050773266525765920701065576070797899,
  fl 1.09346439907288585422822014625044716208,
  fl 1.096429081816376823386138295859248481766,
  fl 1.09940180263022198546369696823882990404,
  fl 1.10238258330784094355641420942564685751,
  fl 1.10537144570174125558827469625695031104,
  fl 1.108368411723678638009423649426619850137,
  fl 1.111373503344817603850149254228916637444,
  fl 1.1143867425958925363088129569196030678,
  fl 1.11740815156736919905457996308578026665,
  fl 1.12043775240960668442900387986631301277,
  fl 1.123475567333019800733729739775321431954,
  fl 1.12652161860824189979479864378703477763,
  fl 1.129575928566288145997264988840249825907,
  fl 1.13263851959871922798707372367762308438,
  fl 1.13570941415780551424039033067611701343,
  fl 1.13878863475669165370383028384151125472,
  fl 1.14187620396956162271229760828788093894,
  fl 1.14497214443180421939441388822291589579,
  fl 1.14807647884017900677879966269734268003,
  fl 1.15118922995298270581775963520198253612,
  fl 1.154310420590216039548221528724806960684,
  fl 1.157440073633751029613085766293796821106,
  fl 1.16057821202749874636945947257609098625,
  fl 1.16372485877757751381357359909218531234,
  fl 1.166880036952481570555516298414089287834,
  fl 1.170043769683250188080259035792738573,
  fl 1.17321608016363724753480435451324538889,
  fl 1.176396991650281276284645728483848641054,
  fl 1.17958652746287594548610056676944051898,
  fl 1.182784710984341029924457204693850757966,
  fl 1.18599156566099383137126564953421556374,
  fl 1.18920711500272106671749997056047591529,
  fl 1.19243138258315122214272755814543101148,
  fl 1.195664392039827374583837049865451975705,
  fl 1.19890616707438048177030255797630020695,
  fl 1.202156731452703142096396957497765876003,
  fl 1.205416109005123825604211432558411335666,
  fl 1.208684323626581577354792255889216998484,
  fl 1.21196139927680119446816891773249304545,
  fl 1.215247359980468878116520251338798457624,
  fl 1.218542229827408361758207148117394510724,
  fl 1.221846032972757516903891841911570785836,
  fl 1.225158793637145437709464594384845353707,
  fl 1.22848053610687000569400895779278184036,
  fl 1.2318112847340759358845566532127948166,
  fl 1.235151063936933305692912507415415760294,
  fl 1.238499898199816567833368865859612431545,
  fl 1.24185781207348404859367746872659560551,
  fl 1.24522483017525793277520496748615267417,
  fl 1.24860097718920473662176609730249554519,
  fl 1.25198627786631627006020603178920359732,
  fl 1.255380757024691089579390657442301194595,
  fl 1.25878443954971644307786044181516261876,
  fl 1.26219735039425070801401025851841645967,
  fl 1.265619514578806324196273999873453036296,
  fl 1.26905095719173322255441908103233800472,
  fl 1.27249170338940275123669204418460217677,
  fl 1.27594177839639210038120243475928938891,
  fl 1.27940120750566922691358797002785254596,
  fl 1.28287001607877828072666978102151405111,
  fl 1.286348229546025533601482208069738348355,
  fl 1.28983587340666581223274729549155218968,
  fl 1.293332973229089436725559789048704304684,
  fl 1.296839554651009665933754117792451159835,
  fl 1.30035564337965065101414056707091779129,
  fl 1.30388126519193589857452364895199736833,
  fl 1.30741644593467724479715157747196172848,
  fl 1.310961211524764341922991786330755849366,
  fl 1.314515587949354658485983613383997794965,
  fl 1.318079601266063994690185647066116617664,
  fl 1.32165327760315751432651181233060922616,
  fl 1.32523664315974129462953709549872167411,
  fl 1.32882972420595439547865089632866510792,
  fl 1.33243254708316144935164337949073577407,
  fl 1.33604513820414577344262790437186975929,
  fl 1.33966752405330300536003066972435257602,
  fl 1.34329973118683526382421714618163087542,
  fl 1.346941786232945835788173713229537282075,
  fl 1.35059371589203439140852219606013396004,
  fl 1.35425554693689272829801474014070280434,
  fl 1.357927306212901046494536695671766697446,
  fl 1.36160902063822475558553593883194147464,
  fl 1.36530071720401181543069836033754285543,
  fl 1.36900242297459061192960113298219283217,
  fl 1.37271416508766836928499785714471721579,
  fl 1.37643597075453010021632280551868696026,
  fl 1.380167867260238095581945274358283464697,
  fl 1.383909881963831954872659527265192818,
  fl 1.387662042298529159042861017950775988896,
  fl 1.39142437577192618714983552956624344668,
  fl 1.395196909966200178275574599249220994716,
  fl 1.398979672538311140209528136715194969206,
  fl 1.40277269122020470637471352433337881711,
  fl 1.40657599381901544248361973255451684411,
  fl 1.410389608217270704414375128268675481145,
  fl 1.41421356237309504880168872420969807857]

/-- The double `x * 256.0` computed at the start of the decomposition in
`loki::exp2`. -/
def exp2_x256 (x : ℚ) : ℚ := fl (x * 256)

/-- `nm = loki::round (x * 256.0)` from `loki::exp2` (equals `256*n + m`). -/
def exp2_nm (x : ℚ) : ℚ := round (exp2_x256 x)

/-- `z = (x * 256.0 - nm) * (LOG2_BY_256 * 0.5)` from `loki::exp2`. -/
def exp2_zres (x : ℚ) : ℚ :=
  fl (fl (exp2_x256 x - exp2_nm x) * fl (LOG2_BY_256 * 0.5))

/-- `tanh_z = ((TANH_COEFF_5 * z2 + TANH_COEFF_3) * z2 + TANH_COEFF_1) * z`
from `loki::exp2`, with `z2 = z * z`. -/
def exp2_tanh (x : ℚ) : ℚ :=
  let z := exp2_zres x
  let z2 := fl (z * z)
  fl (fl (fl (fl (fl (TANH_COEFF_5 * z2) + TANH_COEFF_3) * z2) + TANH_COEFF_1) * z)

/-- `exp_y = (1.0 + tanh_z) / (1.0 - tanh_z)` from `loki::exp2` (the C
division is one rounded operation: the exact quotient, then `fl`). -/
def exp2_expy (x : ℚ) : ℚ :=
  fl (fl (1 + exp2_tanh x) / fl (1 - exp2_tanh x))

/-- `n = (int) loki::round (nm * (1.0 / 256.0))` from `loki::exp2`
(`1.0 / 256.0` is the exactly representable double `2^-8`). -/
def exp2_n (x : ℚ) : ℤ := c_trunc (round (fl (exp2_nm x * fl ((1:ℚ) / 256))))

/-- `m = (int) nm - 256 * n` from `loki::exp2`. -/
def exp2_m (x : ℚ) : ℤ := c_trunc (exp2_nm x) - 256 * exp2_n x

/-- The scaling loop of `loki::exp2`: `for (i = 0; i < n; i++) ret *= 2;`.
The loop executes `n` times for `n ≥ 0` and zero times for negative `n`
(which is the subject of claim C1). -/
def dbl_loop : ℕ → ℚ → ℚ
  | 0, r => r
  | k + 1, r => dbl_loop k (fl (r * 2))

/-- `loki::exp2` from loki.cpp.  `DBL_MAX_EXP = 1024`,
`DBL_MIN_EXP - 1 - DBL_MANT_DIG = -1021 - 1 - 53 = -1075`.  The table access
`exp_table[128 + m]` is modelled with `List.getD`; claim C9 proves the index
is always within the 257 entries. -/
def exp2 (x : ℚ) : DVal :=
  if 1024 < x then DVal.posInf
  else if x < -1075 then DVal.fin 0
  else
    DVal.fin (dbl_loop (exp2_n x).toNat
      (fl (exp_table.getD (128 + exp2_m x).toNat 0 * exp2_expy x)))

end loki

/-- The z-base-32 alphabet from loki.cpp (adapted from Lokinet
llarp/encode.hpp). -/
def zbase32_alpha : List Char :=
  ['y', 'b', 'n', 'd', 'r', 'f', 'g', '8',
   'e', 'j', 'k', 'm', 'c', 'p', 'q', 'x',
   'o', 't', '1', 'u', 'w', 'i', 's', 'z',
   'a', '3', '4', '5', 'h', '7', '6', '9']

/-- The hex-digit decoding lambda of `loki::hex64_to_base32z`, on ASCII byte
values: '0'(48)-'9'(57) map to 0-9, 'A'(65)-'F'(70) to 10-15,
'a'(97)-'f'(102) to 10-15, and everything else to 0. -/
def hex_nibble (ch : ℕ) : ℕ :=
  if 48 ≤ ch ∧ ch ≤ 57 then ch - 48
  else if 65 ≤ ch ∧ ch ≤ 70 then ch - 55
  else if 97 ≤ ch ∧ ch ≤ 102 then ch - 87
  else 0

/-- One-for-one model of the `while` loop of `base32z_encode` of loki.cpp
(with `sizeof(stack) = 64`):

    while(ret < sizeof(stack) && (bits > 0 || pos < len)) {
      if(bits < 5) {
        if(pos < len) { tmp <<= 8; tmp |= value[pos] & 0xFF; pos++; bits += 8; }
        else          { tmp <<= (5 - bits); bits = 5; }
      }
      bits -= 5;
      int ind = (tmp >> bits) & 0x1F;
      if(ret < sizeof(stack)) { stack[ret] = zbase32_alpha[ind]; ret++; }
      else return nullptr;
    }
    return &stack[0];

`acc` is the list of characters written to `stack[0..ret)` (every write is
`stack[ret] = ...` with `ret` increasing by 1, so the buffer contents are
exactly `acc`); `none` models `return nullptr`, `some acc` models returning
the buffer.  The C `int tmp` accumulates shifted-in bytes without ever
clearing consumed high bits, so it can exceed 32 bits; we model its bit
pattern with an explicit `% 2^32` after each shift.  Only bits `[bits, bits+5)`
with `bits + 5 ≤ 17` are ever read out of `tmp`, so the low 32 bits determine
every extracted index even though signed overflow of the C `int` is not
otherwise defined.  The loop body runs at most `64 - ret` times (each
iteration either increments `ret` or returns), so it is written by structural
recursion on `fuel`, called with `fuel = 64` and `ret = 0`; when `fuel = 0`
and `ret < 64` would still allow an iteration (unreachable from the actual
call, where `fuel + ret = 64` throughout) the model returns `none`. -/
def b32_go (value : List ℕ) : ℕ → List Char → ℕ → ℕ → ℕ → ℕ → Option (List Char)
  | 0, acc, ret, pos, bits, _tmp =>
    if ret < 64 ∧ (0 < bits ∨ pos < value.length) then none else some acc
  | fuel + 1, acc, ret, pos, bits, tmp =>
    if ret < 64 ∧ (0 < bits ∨ pos < value.length) then
      let st :=
        if bits < 5 then
          if pos < value.length then
            ((tmp * 2 ^ 8 + value.getD pos 0 % 256) % 2 ^ 32, bits + 8, pos + 1)
          else
            (tmp * 2 ^ (5 - bits) % 2 ^ 32, 5, pos)
        else (tmp, bits, pos)
      let tmp2 := st.1
      let bits2 := st.2.1 - 5
      let pos2 := st.2.2
      let ind := tmp2 / 2 ^ bits2 % 32
      if ret < 64 then
        b32_go value fuel (acc ++ [zbase32_alpha.getD ind 'y']) (ret + 1) pos2 bits2 tmp2
      else none
    else some acc

/-- `base32z_encode` of loki.cpp, on a list of byte values.  The C code reads
`tmp = value[0]` before the loop even when `value` is empty (an out-of-bounds
read of the `std::vector`); the parameter `garbage` stands for the
indeterminate value obtained by that read, and is unused when `value` is
nonempty. -/
def base32z_encode (value : List ℕ) (garbage : ℕ) : Option (List Char) :=
  b32_go value 64 [] 0 1 8 (value.headD garbage)

namespace loki

/-- `loki::hex64_to_base32z` on the list of byte values of the input string:
decode each character to a nibble with `hex_nibble`, encode with
`base32z_encode`, and build the result as the C code does with
`std::string result = dest`: `dest` points at the zero-initialised
`char buf[64]`, and the `std::string` constructor scans from `buf[0]` to the
first NUL byte.  When fewer than 64 characters were written, the remaining
buffer bytes are still 0, so the scan returns exactly the written characters
(no alphabet character is NUL).  When all 64 bytes have been written there
is no terminator inside the buffer and the scan reads past it, through
whatever adjacent stack memory holds, up to the next zero byte; the
parameter `overread` stands for that indeterminate NUL-free suffix of
adjacent memory.  When `base32z_encode` returns `nullptr` (unreachable, see
C2) the result stays empty.  The `assert(src.size() <= 64)` is a
precondition on callers; theorems state it as a hypothesis where relevant. -/
def hex64_to_base32z (garbage : ℕ) (overread : List Char) (src : List ℕ) : List Char :=
  let bin := src.map hex_nibble
  match base32z_encode bin garbage with
  | some cs => if cs.length < 64 then cs else cs ++ overread
  | none => []

end loki

/-- When the encoder writes fewer than 64 characters, the returned string is
exactly the written characters (the rest of the zero-initialised buffer
provides the terminator), independently of the adjacent memory. -/
theorem hex64_of_encode_lt (g : ℕ) (ov : List Char) (src : List ℕ) (cs : List Char)
    (h : base32z_encode (src.map hex_nibble) g = some cs) (hlt : cs.length < 64) :
    loki.hex64_to_base32z g ov src = cs := by
  unfold loki.hex64_to_base32z
  simp only [h, if_pos hlt]

/-- When the encoder fills the whole 64-byte buffer, no terminator is left
inside it and the returned string is the written characters followed by the
indeterminate adjacent memory up to the next zero byte. -/
theorem hex64_of_encode_full (g : ℕ) (ov : List Char) (src : List ℕ) (cs : List Char)
    (h : base32z_encode (src.map hex_nibble) g = some cs) (hfull : ¬(cs.length < 64)) :
    loki.hex64_to_base32z g ov src = cs ++ ov := by
  unfold loki.hex64_to_base32z
  simp only [h, if_neg hfull]

/-- C6: `loki::round` rounds the four half-integer test values with ties away
from zero: round(0.5) = 1, round(-0.5) = -1, round(2.5) = 3, round(-2.5) = -3. -/
theorem c6_round_ties_away_from_zero :
    loki.round 0.5 = 1 ∧ loki.round (-0.5) = -1 ∧
      loki.round 2.5 = 3 ∧ loki.round (-2.5) = -3 :=
  ⟨Rat.ext (by with_unfolding_all decide) (by with_unfolding_all decide),
   Rat.ext (by with_unfolding_all decide) (by with_unfolding_all decide),
   Rat.ext (by with_unfolding_all decide) (by with_unfolding_all decide),
   Rat.ext (by with_unfolding_all decide) (by with_unfolding_all decide)⟩

/-- C8: `loki::exp2 0.0` returns exactly `1.0`, and the table entry at index
128 is exactly `1.0`. -/
theorem c8_exp2_zero_eq_one :
    loki.exp2 0 = DVal.fin 1 ∧ loki.exp_table.getD 128 0 = 1 := by
  constructor
  · rw [loki.exp2, if_neg (by norm_num : ¬((1024:ℚ) < 0)),
      if_neg (by norm_num : ¬((0:ℚ) < -1075))]
    exact congrArg DVal.fin
      (Rat.ext (by with_unfolding_all decide) (by with_unfolding_all decide))
  · exact Rat.ext (by with_unfolding_all decide) (by with_unfolding_all decide)

/-- C1 (code bug): `loki::exp2` applied to the integer `-1.0` returns `1.0`,
not `2^-1 = 0.5`: the final scaling loop `for (i = 0; i < n; i++) ret *= 2`
performs no iterations when `n` is negative, so the promised `2^n` factor
(see the comment `exp2(x) = 2^n * exp(m * log(2)/256) * exp(y)` in the
source) is silently dropped for every negative integer part. -/
theorem c1_exp2_negative_input_bug :
    loki.exp2 (-1) = DVal.fin 1 ∧ (2:ℚ) ^ (-1 : ℤ) ≠ 1 := by
  constructor
  · rw [loki.exp2, if_neg (by norm_num : ¬((1024:ℚ) < -1)),
      if_neg (by norm_num : ¬((-1:ℚ) < -1075))]
    exact congrArg DVal.fin
      (Rat.ext (by with_unfolding_all decide) (by with_unfolding_all decide))
  · norm_num

/-- C4: `loki::exp2` saturates at the extremes: for `x > DBL_MAX_EXP = 1024`
it returns `HUGE_VAL` (positive infinity), and for
`x < DBL_MIN_EXP - 1 - DBL_MANT_DIG = -1075` it returns `0.0`. -/
theorem c4_exp2_saturation (x : ℚ) :
    (1024 < x → loki.exp2 x = DVal.posInf) ∧
      (x < -1075 → loki.exp2 x = DVal.fin 0) := by
  constructor
  · intro h
    rw [loki.exp2, if_pos h]
  · intro h
    rw [loki.exp2, if_neg (by linarith : ¬(1024 < x)), if_pos h]

/-- Witness for C4 at the concrete inputs `1025` and `-1076`. -/
theorem c4_exp2_saturation_witness :
    loki.exp2 1025 = DVal.posInf ∧ loki.exp2 (-1076) = DVal.fin 0 :=
  ⟨(c4_exp2_saturation 1025).1 (by norm_num),
   (c4_exp2_saturation (-1076)).2 (by norm_num)⟩

/-- C7: the decode step of `loki::hex64_to_base32z` maps each input character
independently to a nibble: '0'-'9' (48-57) to 0-9, 'A'-'F' (65-70) to 10-15,
'a'-'f' (97-102) to 10-15, and every other character to 0, silently. -/
theorem c7_hex_nibble_map (ch : ℕ) :
    (48 ≤ ch ∧ ch ≤ 57 → hex_nibble ch = ch - 48 ∧ hex_nibble ch ≤ 9) ∧
      (65 ≤ ch ∧ ch ≤ 70 →
        hex_nibble ch = ch - 55 ∧ 10 ≤ hex_nibble ch ∧ hex_nibble ch ≤ 15) ∧
      (97 ≤ ch ∧ ch ≤ 102 →
        hex_nibble ch = ch - 87 ∧ 10 ≤ hex_nibble ch ∧ hex_nibble ch ≤ 15) ∧
      (¬(48 ≤ ch ∧ ch ≤ 57) → ¬(65 ≤ ch ∧ ch ≤ 70) → ¬(97 ≤ ch ∧ ch ≤ 102) →
        hex_nibble ch = 0) := by
  unfold hex_nibble
  refine ⟨fun h => ?_, fun h => ?_, fun h => ?_, fun h1 h2 h3 => ?_⟩ <;>
    split_ifs <;> omega

/-- Witness for C7 at the concrete characters '0' (48), 'F' (70), 'f' (102)
and '!' (33). -/
theorem c7_hex_nibble_map_witness :
    (hex_nibble 48 = 0 ∧ hex_nibble 48 ≤ 9) ∧
      (hex_nibble 70 = 15 ∧ 10 ≤ hex_nibble 70 ∧ hex_nibble 70 ≤ 15) ∧
      (hex_nibble 102 = 15 ∧ 10 ≤ hex_nibble 102 ∧ hex_nibble 102 ≤ 15) ∧
      hex_nibble 33 = 0 :=
  ⟨(c7_hex_nibble_map 48).1 (by omega),
   (c7_hex_nibble_map 70).2.1 (by omega),
   (c7_hex_nibble_map 102).2.2.1 (by omega),
   (c7_hex_nibble_map 33).2.2.2 (by omega) (by omega) (by omega)⟩

/-- C2 (code bug): when the encoded output would exceed the 64-character
capacity (41 input bytes need `ceil(8*41/5) = 66` characters),
`base32z_encode` does not signal a failure: the loop condition
`ret < sizeof(stack)` stops the loop at exactly 64 characters, so the guarded
`return nullptr` branch is unreachable and `loki::hex64_to_base32z` returns
the silently truncated 64 written characters (followed by the indeterminate
overread past the unterminated buffer) instead of an empty string. -/
theorem c2_capacity_truncates_instead_of_failing :
    base32z_encode (List.replicate 41 0) 0 ≠ none ∧
      (∀ overread : List Char,
        (loki.hex64_to_base32z 0 overread (List.replicate 41 48)).length =
          64 + overread.length) ∧
      (8 * 41 + 4) / 5 = 66 := by
  refine ⟨by decide, ?_, by norm_num⟩
  intro ov
  cases hc : base32z_encode ((List.replicate 41 48).map hex_nibble) 0 with
  | none => exact absurd hc (by decide)
  | some cs =>
    have h2 : (base32z_encode ((List.replicate 41 48).map hex_nibble) 0).map
        List.length = some 64 := by decide
    rw [hc] at h2
    have hlen : cs.length = 64 := by simpa using h2
    rw [hex64_of_encode_full 0 ov (List.replicate 41 48) cs hc (by omega)]
    simp [hlen]

/-- Any successful run of the `base32z_encode` loop adds at most `fuel`
characters to the output buffer (each iteration writes one character under
the `ret < sizeof(stack)` guard). -/
theorem b32_go_length_le (v : List ℕ) :
    ∀ (fuel : ℕ) (acc : List Char) (ret pos bits tmp : ℕ) (cs : List Char),
      b32_go v fuel acc ret pos bits tmp = some cs → cs.length ≤ acc.length + fuel := by
  intro fuel
  induction fuel with
  | zero =>
    intro acc ret pos bits tmp cs h
    rw [b32_go] at h
    split at h
    · exact absurd h (by simp)
    · cases h; simp
  | succ f ih =>
    intro acc ret pos bits tmp cs h
    rw [b32_go] at h
    by_cases hc : ret < 64 ∧ (0 < bits ∨ pos < v.length)
    · rw [if_pos hc] at h
      dsimp only at h
      rw [if_pos hc.1] at h
      have := ih _ _ _ _ _ _ h
      simp only [List.length_append, List.length_singleton] at this
      omega
    · rw [if_neg hc] at h
      cases h; simp

/-- C10 (code bug): every buffer write of `base32z_encode` is indeed guarded
by `ret < sizeof(stack)` and lands in `stack[0..63]` (see
`b32_go_length_le`: the encoder never produces more than 64 characters), but
`loki::hex64_to_base32z` does not always return a string of length at most
64: a 40-character input writes all 64 buffer bytes with non-NUL characters,
leaving `buf` without a terminator, so the `std::string result = dest`
construction reads past the buffer and the result is the 64 written
characters followed by the indeterminate adjacent memory up to the next zero
byte — length `64 + overread.length`, exceeding 64 whenever that suffix is
nonempty. -/
theorem c10_full_buffer_unterminated (overread : List Char) :
    (loki.hex64_to_base32z 0 overread (List.replicate 40 48)).length =
      64 + overread.length := by
  cases hc : base32z_encode ((List.replicate 40 48).map hex_nibble) 0 with
  | none => exact absurd hc (by decide)
  | some cs =>
    have h2 : (base32z_encode ((List.replicate 40 48).map hex_nibble) 0).map
        List.length = some 64 := by decide
    rw [hc] at h2
    have hlen : cs.length = 64 := by simpa using h2
    rw [hex64_of_encode_full 0 overread (List.replicate 40 48) cs hc (by omega)]
    simp [hlen]

/-- Exact output count of the `base32z_encode` loop: starting from a state
satisfying the loop invariant `8 * pos = 5 * ret + bits` (with the fuel tied
to the capacity guard by `fuel + ret = 64`), the loop succeeds and produces
exactly `ceil(8 * N / 5)` characters for an input of `N ≤ 40` bytes. -/
theorem b32_go_length_exact (v : List ℕ) (hv : v.length ≤ 40) :
    ∀ (fuel : ℕ) (acc : List Char) (ret pos bits tmp : ℕ),
      fuel + ret = 64 → acc.length = ret →
      8 * pos = 5 * ret + bits → pos ≤ v.length → bits ≤ 8 →
      ∃ cs, b32_go v fuel acc ret pos bits tmp = some cs ∧
        cs.length = (8 * v.length + 4) / 5 := by
  intro fuel
  induction fuel with
  | zero =>
    intro acc ret pos bits tmp hfr hacc hinv hpos hbits
    have hret : ret = 64 := by omega
    have hb0 : bits = 0 := by omega
    have hpv : pos = v.length := by omega
    rw [b32_go, if_neg (by omega)]
    exact ⟨acc, rfl, by omega⟩
  | succ f ih =>
    intro acc ret pos bits tmp hfr hacc hinv hpos hbits
    have hret : ret < 64 := by omega
    by_cases hg : 0 < bits ∨ pos < v.length
    · rw [b32_go, if_pos ⟨hret, hg⟩]
      dsimp only
      rw [if_pos hret]
      by_cases h5 : bits < 5
      · by_cases hp : pos < v.length
        · -- shift in the next byte
          simp only [if_pos h5, if_pos hp]
          exact ih _ _ _ _ _ (by omega) (by simp [hacc]) (by omega)
            (by omega) (by omega)
        · -- last byte: pad to 5 bits, emit, and the loop then terminates
          have hb0 : 0 < bits := by
            rcases hg with h | h
            · exact h
            · exact absurd h hp
          have hpv : pos = v.length := by omega
          simp only [if_pos h5, if_neg hp]
          refine ⟨acc ++ [zbase32_alpha.getD (tmp * 2 ^ (5 - bits) % 2 ^ 32 / 2 ^ (5 - 5) % 32) 'y'], ?_, ?_⟩
          · cases f with
            | zero => rw [b32_go, if_neg (by omega)]
            | succ f' => rw [b32_go, if_neg (by omega)]
          · simp only [List.length_append, List.length_singleton, hacc]
            omega
      · -- at least 5 bits buffered: emit directly
        simp only [if_neg h5]
        exact ih _ _ _ _ _ (by omega) (by simp [hacc]) (by omega) (by omega) (by omega)
    · -- bits = 0 and pos = v.length: the loop exits with the accumulated output
      push_neg at hg
      have hb0 : bits = 0 := by omega
      have hpv : pos = v.length := by omega
      rw [b32_go, if_neg (by omega)]
      exact ⟨acc, rfl, by omega⟩

/-- On an empty input the `base32z_encode` loop still runs: `bits` starts at
8, so the loop body executes twice (once on the 8 garbage bits, once on the
2 zero-padded leftover bits) and emits exactly two characters, whatever the
indeterminate initial value of `tmp` was. -/
theorem b32_go_empty_emits_two :
    ∀ (fuel : ℕ), 2 ≤ fuel → ∀ (acc : List Char) (ret tmp : ℕ), ret + 2 ≤ 64 →
      ∃ cs, b32_go [] fuel acc ret 1 8 tmp = some cs ∧ cs.length = acc.length + 2 := by
  intro fuel hf
  match fuel, hf with
  | f + 2, _ =>
    intro acc ret tmp hret
    have h1 : ret < 64 := by omega
    have h2 : ret + 1 < 64 := by omega
    simp only [b32_go, List.length_nil, h1, h2]
    norm_num
    cases f with
    | zero =>
      simp only [b32_go]
      norm_num
    | succ f' =>
      simp only [b32_go]
      norm_num

/-- C3 (code bug): `loki::hex64_to_base32z` applied to the empty string does
not return the empty string: `base32z_encode` unconditionally reads
`value[0]` from the empty decoded vector (an out-of-bounds read yielding an
indeterminate value, modelled by `garbage`) and, since `bits` starts at 8,
the loop emits exactly two characters derived from that indeterminate value,
for every possible value of it (2 < 64, so the buffer keeps its terminator
and the adjacent-memory parameter is irrelevant here). -/
theorem c3_empty_input_bug (garbage : ℕ) (overread : List Char) :
    (loki.hex64_to_base32z garbage overread []).length = 2 := by
  obtain ⟨cs, hcs, hl⟩ := b32_go_empty_emits_two 64 (by norm_num) [] 0 garbage (by norm_num)
  simp only [List.length_nil] at hl
  have hcs' : base32z_encode (([] : List ℕ).map hex_nibble) garbage = some cs := hcs
  rw [hex64_of_encode_lt garbage overread [] cs hcs' (by omega)]
  omega

/-- Counterexample for C5: the empty input is accepted and its encoding
completes (the encoder never signals failure), yet the output length is 2,
not `ceil(8*0/5) = 0`. -/
theorem c5_counterexample_empty :
    (loki.hex64_to_base32z 0 [] []).length ≠ (8 * ([] : List ℕ).length + 4) / 5 := by
  obtain ⟨cs, hcs, hl⟩ := b32_go_empty_emits_two 64 (by norm_num) [] 0 0 (by norm_num)
  simp only [List.length_nil] at hl
  have hcs' : base32z_encode (([] : List ℕ).map hex_nibble) 0 = some cs := hcs
  rw [hex64_of_encode_lt 0 [] [] cs hcs' (by omega)]
  simp only [List.length_nil]
  omega

/-- C5 (amended): for every nonempty hex input of at most 39 characters (so
that strictly fewer than 64 output characters are written and the
zero-initialised buffer keeps a NUL terminator), the returned string's
length is exactly `ceil(8*N/5)` where `N` is the number of decoded input
bytes (one byte per input character in this implementation).  Inputs of 40
or more characters fill the buffer completely and fall under the
unterminated-buffer defect, see C10. -/
theorem c5_output_length_formula (src : List ℕ) (garbage : ℕ) (overread : List Char)
    (hne : src ≠ []) (hlen : src.length ≤ 39) :
    (loki.hex64_to_base32z garbage overread src).length = (8 * src.length + 4) / 5 := by
  have hv : (src.map hex_nibble).length ≤ 40 := by
    simp only [List.length_map]
    omega
  have hpos : 1 ≤ (src.map hex_nibble).length := by
    simp only [List.length_map]
    exact Nat.pos_of_ne_zero fun h => hne (List.eq_nil_of_length_eq_zero h)
  obtain ⟨cs, hcs, hl⟩ := b32_go_length_exact (src.map hex_nibble) hv 64 [] 0 1 8
    ((src.map hex_nibble).headD garbage) (by omega) rfl (by omega) hpos (by omega)
  simp only [List.length_map] at hl
  have hcs' : base32z_encode (src.map hex_nibble) garbage = some cs := hcs
  rw [hex64_of_encode_lt garbage overread src cs hcs' (by omega), hl]

/-- Witness for C5 at the concrete one-character input "0" (byte 48):
the output has `ceil(8*1/5) = 2` characters. -/
theorem c5_output_length_formula_witness :
    ([48] : List ℕ) ≠ [] ∧ ([48] : List ℕ).length ≤ 39 ∧
      (loki.hex64_to_base32z 0 [] [48]).length = (8 * ([48] : List ℕ).length + 4) / 5 :=
  ⟨by decide, by decide, c5_output_length_formula [48] 0 [] (by decide) (by decide)⟩

/-! ### Properties of the rounding model, used for claim C9 -/

/-- `rne` of an integer is that integer. -/
theorem rne_intCast (k : ℤ) : rne (k : ℚ) = k := by
  unfold rne
  norm_num

/-- `rne` rounds to distance at most 1/2. -/
theorem rne_dist (q : ℚ) : |(rne q : ℚ) - q| ≤ 1/2 := by
  unfold rne
  have h0 : (⌊q⌋ : ℚ) ≤ q := Int.floor_le q
  have h1 : q < ⌊q⌋ + 1 := Int.lt_floor_add_one q
  dsimp only
  split_ifs with hlt hgt hev <;>
  · rw [abs_le]
    push_cast
    constructor <;> linarith

/-- The integer `rne q` is at least any integer below `q - 1/2`. -/
theorem rne_ge (q : ℚ) (k : ℤ) (h : (k : ℚ) ≤ q - 1/2) : k ≤ rne q := by
  have hd := (abs_le.mp (rne_dist q)).1
  exact_mod_cast show (k:ℚ) ≤ rne q by linarith

/-- The integer `rne q` is at most any integer above `q + 1/2`. -/
theorem rne_le (q : ℚ) (k : ℤ) (h : q + 1/2 ≤ (k : ℚ)) : rne q ≤ k := by
  have hd := (abs_le.mp (rne_dist q)).2
  exact_mod_cast show (rne q:ℚ) ≤ k by linarith

/-- `nlog2` with sufficient fuel computes the floor of log2. -/
theorem nlog2_spec :
    ∀ (fuel n : ℕ), 1 ≤ n → n ≤ fuel →
      2 ^ nlog2 fuel n ≤ n ∧ n < 2 ^ (nlog2 fuel n + 1) := by
  intro fuel
  induction fuel with
  | zero => intro n h1 h2; omega
  | succ f ih =>
    intro n h1 h2
    rw [nlog2]
    by_cases hn : n ≤ 1
    · have : n = 1 := by omega
      simp [this]
    · rw [if_neg hn]
      have hrec := ih (n / 2) (by omega) (by omega)
      obtain ⟨hlo, hhi⟩ := hrec
      constructor
      · rw [pow_succ]
        omega
      · rw [pow_succ, pow_succ] at *
        omega

/-- `rne` of a nonnegative value is nonnegative. -/
theorem rne_nonneg (q : ℚ) (h : 0 ≤ q) : 0 ≤ rne q := by
  unfold rne
  have hf : (0:ℤ) ≤ ⌊q⌋ := Int.floor_nonneg.mpr h
  dsimp only
  split_ifs <;> omega

/-- Numeric cast helper. -/
theorem q252 : (((2:ℤ) ^ 52 : ℤ) : ℚ) = (2:ℚ) ^ (52:ℤ) := by norm_num

/-- Numeric cast helper. -/
theorem q253 : (((2:ℤ) ^ 53 : ℤ) : ℚ) = (2:ℚ) ^ (53:ℤ) := by norm_num

/-- The binade search `ilog2` satisfies its specification:
`2 ^ ilog2 q ≤ |q| < 2 ^ (ilog2 q + 1)` for `q ≠ 0`. -/
theorem ilog2_spec (q : ℚ) (hq : q ≠ 0) :
    (2:ℚ) ^ ilog2 q ≤ |q| ∧ |q| < (2:ℚ) ^ (ilog2 q + 1) := by
  have hden : 0 < q.den := q.pos
  have hnum : q.num ≠ 0 := Rat.num_ne_zero.mpr hq
  have hna : 1 ≤ q.num.natAbs := by omega
  obtain ⟨hn1, hn2⟩ := nlog2_spec q.num.natAbs q.num.natAbs hna le_rfl
  obtain ⟨hd1, hd2⟩ := nlog2_spec q.den q.den hden le_rfl
  set en := nlog2 q.num.natAbs q.num.natAbs with hen
  set ed := nlog2 q.den q.den with hed
  have hdpos : (0:ℚ) < (q.den : ℚ) := by exact_mod_cast hden
  have habs : |q| = (q.num.natAbs : ℚ) / (q.den : ℚ) := by
    rw [Int.cast_natAbs, Int.cast_abs]
    conv_lhs => rw [← Rat.num_div_den q]
    rw [abs_div, abs_of_pos hdpos]
  have hNlo : ((2:ℚ) ^ (en:ℤ)) ≤ (q.num.natAbs : ℚ) := by
    rw [zpow_natCast]; exact_mod_cast hn1
  have hNhi : (q.num.natAbs : ℚ) < (2:ℚ) ^ ((en:ℤ) + 1) := by
    rw [show ((en:ℤ) + 1) = ((en + 1 : ℕ) : ℤ) by push_cast; ring, zpow_natCast]
    exact_mod_cast hn2
  have hDlo : ((2:ℚ) ^ (ed:ℤ)) ≤ (q.den : ℚ) := by
    rw [zpow_natCast]; exact_mod_cast hd1
  have hDhi : (q.den : ℚ) < (2:ℚ) ^ ((ed:ℤ) + 1) := by
    rw [show ((ed:ℤ) + 1) = ((ed + 1 : ℕ) : ℤ) by push_cast; ring, zpow_natCast]
    exact_mod_cast hd2
  have h2ne : (2:ℚ) ≠ 0 := by norm_num
  have hlow : (2:ℚ) ^ ((en : ℤ) - (ed : ℤ) - 1) < |q| := by
    rw [habs, lt_div_iff₀ hdpos]
    calc (2:ℚ) ^ ((en : ℤ) - (ed : ℤ) - 1) * (q.den : ℚ)
        < (2:ℚ) ^ ((en : ℤ) - (ed : ℤ) - 1) * (2:ℚ) ^ ((ed:ℤ) + 1) :=
          mul_lt_mul_of_pos_left hDhi (zpow_pos (by norm_num) _)
      _ = (2:ℚ) ^ ((en : ℤ)) := by
          rw [← zpow_add₀ h2ne]; ring_nf
      _ ≤ (q.num.natAbs : ℚ) := hNlo
  have hhigh : |q| < (2:ℚ) ^ ((en : ℤ) - (ed : ℤ) + 1) := by
    rw [habs, div_lt_iff₀ hdpos]
    calc (q.num.natAbs : ℚ) < (2:ℚ) ^ ((en:ℤ) + 1) := hNhi
      _ = (2:ℚ) ^ ((en : ℤ) - (ed : ℤ) + 1) * (2:ℚ) ^ (ed:ℤ) := by
          rw [← zpow_add₀ h2ne]; ring_nf
      _ ≤ (2:ℚ) ^ ((en : ℤ) - (ed : ℤ) + 1) * (q.den : ℚ) :=
          mul_le_mul_of_nonneg_left hDlo (le_of_lt (zpow_pos (by norm_num) _))
  rw [ilog2]
  rw [← hen, ← hed]
  split_ifs with hcase
  · refine ⟨le_of_lt hlow, ?_⟩
    rw [show (en:ℤ) - (ed:ℤ) - 1 + 1 = (en:ℤ) - (ed:ℤ) by ring]
    exact hcase
  · exact ⟨not_lt.mp hcase, hhigh⟩

/-- Uniqueness of the binade: if `2^a ≤ |q| < 2^(a+1)` then `ilog2 q = a`. -/
theorem ilog2_unique (q : ℚ) (a : ℤ) (h1 : (2:ℚ) ^ a ≤ |q|) (h2 : |q| < (2:ℚ) ^ (a + 1)) :
    ilog2 q = a := by
  have hq : q ≠ 0 := by
    intro h
    rw [h, abs_zero] at h1
    exact absurd h1 (not_le.mpr (zpow_pos (by norm_num) a))
  obtain ⟨hl, hh⟩ := ilog2_spec q hq
  by_contra hne
  rcases lt_or_gt_of_ne hne with hlt | hgt
  · have : (2:ℚ) ^ (ilog2 q + 1) ≤ (2:ℚ) ^ a := zpow_le_zpow_right₀ (by norm_num) (by omega)
    linarith
  · have : (2:ℚ) ^ (a + 1) ≤ (2:ℚ) ^ (ilog2 q) := zpow_le_zpow_right₀ (by norm_num) (by omega)
    linarith

/-- `ilog2` is invariant under negation. -/
theorem ilog2_neg (q : ℚ) : ilog2 (-q) = ilog2 q := by
  rw [ilog2, ilog2]
  simp [Rat.neg_num, Rat.neg_den, abs_neg]

/-- `fl 0 = 0`. -/
theorem fl_zero : fl 0 = 0 := by rw [fl]; simp

/-- Closed form of `fl` on the normal range. -/
theorem fl_eq_normal (q : ℚ) (hq : q ≠ 0) (he : ¬(ilog2 q < -1022)) :
    fl q = (if 0 < q then (1:ℚ) else -1) *
      (rne (|q| * (2:ℚ) ^ (52 - ilog2 q)) : ℚ) * (2:ℚ) ^ (ilog2 q - 52) := by
  rw [fl, if_neg hq]
  simp only [if_neg he]

/-- Closed form of `fl` on the subnormal range. -/
theorem fl_eq_subnormal (q : ℚ) (hq : q ≠ 0) (he : ilog2 q < -1022) :
    fl q = (if 0 < q then (1:ℚ) else -1) *
      (rne (|q| * (2:ℚ) ^ (1074:ℤ)) : ℚ) * (2:ℚ) ^ (-1074:ℤ) := by
  rw [fl, if_neg hq]
  simp only [if_pos he]

/-- `fl` commutes with negation. -/
theorem fl_neg (q : ℚ) : fl (-q) = -fl q := by
  by_cases hq : q = 0
  · rw [hq]; simp [fl_zero]
  have hq' : -q ≠ 0 := neg_ne_zero.mpr hq
  by_cases he : ilog2 q < -1022
  · rw [fl_eq_subnormal q hq he, fl_eq_subnormal (-q) hq' (by rwa [ilog2_neg]),
      abs_neg]
    rcases lt_trichotomy q 0 with h | h | h
    · rw [if_pos (show (0:ℚ) < -q by linarith), if_neg (show ¬((0:ℚ) < q) by linarith)]
      ring
    · exact absurd h hq
    · rw [if_neg (show ¬((0:ℚ) < -q) by linarith), if_pos h]
      ring
  · rw [fl_eq_normal q hq he, fl_eq_normal (-q) hq' (by rwa [ilog2_neg]),
      abs_neg, ilog2_neg]
    rcases lt_trichotomy q 0 with h | h | h
    · rw [if_pos (show (0:ℚ) < -q by linarith), if_neg (show ¬((0:ℚ) < q) by linarith)]
      ring
    · exact absurd h hq
    · rw [if_neg (show ¬((0:ℚ) < -q) by linarith), if_pos h]
      ring

/-- A 53-bit representable rational: `k * 2^j` with `|k| ≤ 2^53` (and the
exponent bounded below by the double subnormal range). -/
def Repr53 (u : ℚ) : Prop :=
  ∃ k j : ℤ, u = (k:ℚ) * (2:ℚ) ^ j ∧ |k| ≤ 2 ^ 53 ∧ -1074 ≤ j

/-- Sign bookkeeping: the sign factor of `fl` times `|k|` recovers `k`. -/
theorem fl_sign_mul_abs (k : ℤ) (j : ℤ) (hk : k ≠ 0) :
    (if 0 < (k:ℚ) * (2:ℚ) ^ j then (1:ℚ) else -1) * |(k:ℚ)| = (k : ℚ) := by
  have hp : (0:ℚ) < (2:ℚ) ^ j := zpow_pos (by norm_num) j
  rcases lt_or_gt_of_ne hk with h | h
  · have hkQ : (k:ℚ) < 0 := by exact_mod_cast h
    have hq : (k:ℚ) * (2:ℚ) ^ j < 0 := mul_neg_of_neg_of_pos hkQ hp
    rw [if_neg (by linarith), abs_of_neg hkQ]
    ring
  · have hkQ : (0:ℚ) < (k:ℚ) := by exact_mod_cast h
    have hq : (0:ℚ) < (k:ℚ) * (2:ℚ) ^ j := mul_pos hkQ hp
    rw [if_pos hq, abs_of_pos hkQ]
    ring

/-- Cast of the 53-bit bound. -/
theorem abs_cast_le_two53 (k : ℤ) (hk : |k| ≤ 2 ^ 53) :
    |(k:ℚ)| ≤ (2:ℚ) ^ (53:ℤ) := by
  rw [show ((2:ℚ) ^ (53:ℤ)) = ((2 ^ 53 : ℤ) : ℚ) by push_cast; norm_num]
  rw [← Int.cast_abs]
  exact_mod_cast hk

/-- `fl` is exact on representable values with in-range exponent: a value
`k * 2^j` with `|k| ≤ 2^53` and `j ≥ -1000` is already a double, and `fl`
fixes it. -/
theorem fl_exact (k j : ℤ) (hk : |k| ≤ 2 ^ 53) (hj : -1000 ≤ j) :
    fl ((k:ℚ) * (2:ℚ) ^ j) = (k:ℚ) * (2:ℚ) ^ j := by
  by_cases hk0 : k = 0
  · rw [hk0]; simpa using fl_zero
  set q : ℚ := (k:ℚ) * (2:ℚ) ^ j with hqdef
  have h2ne : (2:ℚ) ≠ 0 := by norm_num
  have hp : (0:ℚ) < (2:ℚ) ^ j := zpow_pos (by norm_num) j
  have hkQ : ((k:ℚ)) ≠ 0 := Int.cast_ne_zero.mpr hk0
  have hq : q ≠ 0 := mul_ne_zero hkQ (ne_of_gt hp)
  have habs : |q| = |(k:ℚ)| * (2:ℚ) ^ j := by
    rw [hqdef, abs_mul, abs_of_pos hp]
  have hk1 : (1:ℚ) ≤ |(k:ℚ)| := by
    have h1 : (0:ℤ) < |k| := abs_pos.mpr hk0
    have h2 : (1:ℤ) ≤ |k| := by omega
    rw [← Int.cast_abs]
    exact_mod_cast h2
  set e := ilog2 q with hedef
  obtain ⟨hel, heh⟩ := ilog2_spec q hq
  rw [← hedef] at hel heh
  have hje : j ≤ e := by
    have h1 : (2:ℚ) ^ j ≤ |q| := by
      rw [habs]
      nlinarith
    have h2 := lt_of_le_of_lt h1 heh
    have h3 := (zpow_lt_zpow_iff_right₀ (show (1:ℚ) < 2 by norm_num)).mp h2
    omega
  have hej : e ≤ j + 53 := by
    have h1 : |q| < (2:ℚ) ^ (j + 54) := by
      rw [habs]
      have hks : |(k:ℚ)| < (2:ℚ) ^ (54:ℤ) :=
        lt_of_le_of_lt (abs_cast_le_two53 k hk)
          (zpow_lt_zpow_right₀ (by norm_num) (by omega))
      calc |(k:ℚ)| * (2:ℚ) ^ j < (2:ℚ) ^ (54:ℤ) * (2:ℚ) ^ j :=
            mul_lt_mul_of_pos_right hks hp
        _ = (2:ℚ) ^ (j + 54) := by rw [← zpow_add₀ h2ne]; ring_nf
    have h2 := lt_of_le_of_lt hel h1
    have h3 := (zpow_lt_zpow_iff_right₀ (show (1:ℚ) < 2 by norm_num)).mp h2
    omega
  have he : ¬(e < -1022) := by omega
  rw [fl_eq_normal q hq (by rw [← hedef]; exact he), ← hedef]
  by_cases hcase : e ≤ j + 52
  · have hexp : (0:ℤ) ≤ j + 52 - e := by omega
    have hcast : ((2:ℚ) ^ (j + 52 - e)) = (((2 ^ (j + 52 - e).toNat : ℤ)) : ℚ) := by
      push_cast
      rw [← zpow_natCast (2:ℚ) (j + 52 - e).toNat, Int.toNat_of_nonneg hexp]
    have hscaled : |q| * (2:ℚ) ^ (52 - e) = ((|k| * 2 ^ (j + 52 - e).toNat : ℤ) : ℚ) := by
      rw [habs, mul_assoc, ← zpow_add₀ h2ne, show (j + (52 - e) : ℤ) = j + 52 - e by ring]
      push_cast
      rw [← zpow_natCast (2:ℚ) (j + 52 - e).toNat, Int.toNat_of_nonneg hexp]
    rw [hscaled, rne_intCast]
    push_cast
    rw [← zpow_natCast (2:ℚ) (j + 52 - e).toNat, Int.toNat_of_nonneg hexp]
    calc (if 0 < q then (1:ℚ) else -1) * (|(k:ℚ)| * (2:ℚ) ^ (j + 52 - e)) * (2:ℚ) ^ (e - 52)
        = ((if 0 < q then (1:ℚ) else -1) * |(k:ℚ)|) *
            ((2:ℚ) ^ (j + 52 - e) * (2:ℚ) ^ (e - 52)) := by ring
      _ = (k:ℚ) * (2:ℚ) ^ j := by
          rw [hqdef, fl_sign_mul_abs k j hk0, ← zpow_add₀ h2ne,
            show (j + 52 - e + (e - 52) : ℤ) = j by ring]
  · have he53 : e = j + 53 := by omega
    have hkabs : |(k:ℚ)| = (2:ℚ) ^ (53:ℤ) := by
      by_contra hne
      have hlt : |(k:ℚ)| < (2:ℚ) ^ (53:ℤ) :=
        lt_of_le_of_ne (abs_cast_le_two53 k hk) hne
      have hqlt : |q| < (2:ℚ) ^ e := by
        rw [habs, he53, show (j + 53 : ℤ) = 53 + j by ring, zpow_add₀ h2ne]
        exact mul_lt_mul_of_pos_right hlt hp
      linarith
    have hscaled : |q| * (2:ℚ) ^ (52 - e) = ((2 ^ 52 : ℤ) : ℚ) := by
      rw [habs, hkabs, mul_assoc, ← zpow_add₀ h2ne, ← zpow_add₀ h2ne, he53]
      rw [show ((53:ℤ) + (j + (52 - (j + 53)))) = 52 by ring]
      push_cast
      norm_num
    rw [hscaled, rne_intCast]
    have hfin : ((2 ^ 52 : ℤ) : ℚ) * (2:ℚ) ^ (e - 52) = |(k:ℚ)| * (2:ℚ) ^ j := by
      rw [hkabs, he53]
      rw [show (((2:ℤ) ^ 52 : ℤ) : ℚ) = (2:ℚ) ^ (52:ℤ) by push_cast; norm_num]
      rw [← zpow_add₀ h2ne, ← zpow_add₀ h2ne]
      ring_nf
    rw [mul_assoc, hfin, ← mul_assoc, hqdef, fl_sign_mul_abs k j hk0]

/-- The sign factor times `|q|` recovers `q`. -/
theorem sign_mul_abs_self (q : ℚ) (hq : q ≠ 0) :
    (if 0 < q then (1:ℚ) else -1) * |q| = q := by
  rcases lt_or_gt_of_ne hq with h | h
  · rw [if_neg (by linarith), abs_of_neg h]; ring
  · rw [if_pos h, abs_of_pos h]; ring

/-- In the normal branch the rounded mantissa lies in `[2^52, 2^53]`. -/
theorem fl_normal_mantissa (q : ℚ) (hq : q ≠ 0) :
    (2:ℤ) ^ 52 ≤ rne (|q| * (2:ℚ) ^ (52 - ilog2 q)) ∧
      rne (|q| * (2:ℚ) ^ (52 - ilog2 q)) ≤ 2 ^ 53 := by
  obtain ⟨hel, heh⟩ := ilog2_spec q hq
  set e := ilog2 q with hedef
  have h2ne : (2:ℚ) ≠ 0 := by norm_num
  have hp : (0:ℚ) < (2:ℚ) ^ (52 - e) := zpow_pos (by norm_num) _
  set scaled := |q| * (2:ℚ) ^ (52 - e) with hsdef
  have hn52 : (2:ℚ) ^ (52:ℤ) = (((2:ℤ) ^ 52 : ℤ) : ℚ) := by push_cast; norm_num
  have hn53 : (2:ℚ) ^ (53:ℤ) = (((2:ℤ) ^ 53 : ℤ) : ℚ) := by push_cast; norm_num
  have hlo : (((2:ℤ) ^ 52 : ℤ) : ℚ) ≤ scaled := by
    rw [← hn52]
    calc (2:ℚ) ^ (52:ℤ) = (2:ℚ) ^ e * (2:ℚ) ^ (52 - e) := by
          rw [← zpow_add₀ h2ne]; ring_nf
      _ ≤ scaled := mul_le_mul_of_nonneg_right hel (le_of_lt hp)
  have hhi : scaled < (((2:ℤ) ^ 53 : ℤ) : ℚ) := by
    rw [← hn53]
    calc scaled < (2:ℚ) ^ (e + 1) * (2:ℚ) ^ (52 - e) :=
          mul_lt_mul_of_pos_right heh hp
      _ = (2:ℚ) ^ (53:ℤ) := by rw [← zpow_add₀ h2ne]; ring_nf
  have hd1 := (abs_le.mp (rne_dist scaled)).1
  have hd2 := (abs_le.mp (rne_dist scaled)).2
  constructor
  · have h1 : (((2:ℤ) ^ 52 - 1 : ℤ) : ℚ) < (rne scaled : ℚ) := by push_cast at *; linarith
    have h2 : (2:ℤ) ^ 52 - 1 < rne scaled := by exact_mod_cast h1
    omega
  · have h1 : (rne scaled : ℚ) < (((2:ℤ) ^ 53 + 1 : ℤ) : ℚ) := by push_cast at *; linarith
    have h2 : rne scaled < (2:ℤ) ^ 53 + 1 := by exact_mod_cast h1
    omega

/-- `fl` always produces a 53-bit representable value. -/
theorem fl_repr (q : ℚ) : Repr53 (fl q) := by
  by_cases hq : q = 0
  · exact ⟨0, 0, by rw [hq, fl_zero]; norm_num, by norm_num, by norm_num⟩
  by_cases he : ilog2 q < -1022
  · -- subnormal branch
    rw [fl_eq_subnormal q hq he]
    set w := rne (|q| * (2:ℚ) ^ (1074:ℤ)) with hwdef
    have hub : |q| * (2:ℚ) ^ (1074:ℤ) < (2:ℚ) ^ (52:ℤ) := by
      obtain ⟨_, heh⟩ := ilog2_spec q hq
      have h1 : |q| < (2:ℚ) ^ (-1022:ℤ) :=
        lt_of_lt_of_le heh (zpow_le_zpow_right₀ (by norm_num) (by omega))
      calc |q| * (2:ℚ) ^ (1074:ℤ) < (2:ℚ) ^ (-1022:ℤ) * (2:ℚ) ^ (1074:ℤ) :=
            mul_lt_mul_of_pos_right h1 (zpow_pos (by norm_num) _)
        _ = (2:ℚ) ^ (52:ℤ) := by
            rw [← zpow_add₀ (by norm_num : (2:ℚ) ≠ 0)]; norm_num
    have hnn : (0:ℚ) ≤ |q| * (2:ℚ) ^ (1074:ℤ) :=
      mul_nonneg (abs_nonneg q) (le_of_lt (zpow_pos (by norm_num) _))
    have hd1 := (abs_le.mp (rne_dist (|q| * (2:ℚ) ^ (1074:ℤ)))).1
    have hd2 := (abs_le.mp (rne_dist (|q| * (2:ℚ) ^ (1074:ℤ)))).2
    rw [← hwdef] at hd1 hd2
    have hn52 : (2:ℚ) ^ (52:ℤ) = (((2:ℤ) ^ 52 : ℤ) : ℚ) := by push_cast; norm_num
    have hw : w ≤ 2 ^ 52 := by
      have h1 : (w : ℚ) < (((2:ℤ) ^ 52 + 1 : ℤ) : ℚ) := by
        rw [hn52] at hub
        push_cast at *
        linarith
      have h2 : w < (2:ℤ) ^ 52 + 1 := by exact_mod_cast h1
      omega
    have hw0 : 0 ≤ w := by
      rw [hwdef]
      exact rne_nonneg _ hnn
    refine ⟨(if 0 < q then 1 else -1) * w, -1074, ?_, ?_, by norm_num⟩
    · split_ifs <;> push_cast <;> ring
    · have habsk : |(if 0 < q then (1:ℤ) else -1) * w| = |w| := by
        split_ifs <;> simp
      rw [habsk, abs_of_nonneg hw0]
      omega
  · rw [fl_eq_normal q hq he]
    set w := rne (|q| * (2:ℚ) ^ (52 - ilog2 q)) with hwdef
    obtain ⟨hw1, hw2⟩ := fl_normal_mantissa q hq
    rw [← hwdef] at hw1 hw2
    refine ⟨(if 0 < q then 1 else -1) * w, ilog2 q - 52, ?_, ?_, by omega⟩
    · split_ifs <;> push_cast <;> ring
    · have habsk : |(if 0 < q then (1:ℤ) else -1) * w| = |w| := by
        split_ifs <;> simp
      rw [habsk, abs_of_nonneg (by omega : (0:ℤ) ≤ w)]
      omega

/-- Absolute value of `fl` in the normal branch. -/
theorem abs_fl_normal (q : ℚ) (hq : q ≠ 0) (he : ¬(ilog2 q < -1022)) :
    |fl q| = (rne (|q| * (2:ℚ) ^ (52 - ilog2 q)) : ℚ) * (2:ℚ) ^ (ilog2 q - 52) := by
  obtain ⟨hw1, _⟩ := fl_normal_mantissa q hq
  have hw0 : (0:ℚ) ≤ (rne (|q| * (2:ℚ) ^ (52 - ilog2 q)) : ℚ) := by
    have h0 : (0:ℤ) ≤ rne (|q| * (2:ℚ) ^ (52 - ilog2 q)) := by
      have := (fl_normal_mantissa q hq).1
      omega
    exact_mod_cast h0
  rw [fl_eq_normal q hq he, abs_mul, abs_mul]
  rw [abs_of_nonneg hw0, abs_of_pos (zpow_pos (show (0:ℚ) < 2 by norm_num) _)]
  congr 1
  split_ifs <;> norm_num

/-- Lower magnitude bound: `fl` does not shrink a value below a power of two
beneath it (normal range). -/
theorem fl_lower (q : ℚ) (b : ℤ) (hb : -1022 ≤ b) (h : (2:ℚ) ^ b ≤ |q|) :
    (2:ℚ) ^ b ≤ |fl q| := by
  have h2ne : (2:ℚ) ≠ 0 := by norm_num
  have hq : q ≠ 0 := by
    intro h0
    rw [h0, abs_zero] at h
    exact absurd h (not_le.mpr (zpow_pos (by norm_num) b))
  obtain ⟨hel, heh⟩ := ilog2_spec q hq
  have hbe : b ≤ ilog2 q := by
    have h2 := lt_of_le_of_lt h heh
    have h3 := (zpow_lt_zpow_iff_right₀ (show (1:ℚ) < 2 by norm_num)).mp h2
    omega
  have he : ¬(ilog2 q < -1022) := by omega
  rw [abs_fl_normal q hq he]
  obtain ⟨hw1, _⟩ := fl_normal_mantissa q hq
  have hw1Q : (((2:ℤ) ^ 52 : ℤ) : ℚ) ≤ (rne (|q| * (2:ℚ) ^ (52 - ilog2 q)) : ℚ) := by
    exact_mod_cast hw1
  have hn52 : (((2:ℤ) ^ 52 : ℤ) : ℚ) = (2:ℚ) ^ (52:ℤ) := by push_cast; norm_num
  calc (2:ℚ) ^ b ≤ (2:ℚ) ^ (ilog2 q) := zpow_le_zpow_right₀ (by norm_num) hbe
    _ = (2:ℚ) ^ (52:ℤ) * (2:ℚ) ^ (ilog2 q - 52) := by rw [← zpow_add₀ h2ne]; ring_nf
    _ ≤ (rne (|q| * (2:ℚ) ^ (52 - ilog2 q)) : ℚ) * (2:ℚ) ^ (ilog2 q - 52) := by
        rw [← hn52]
        exact mul_le_mul_of_nonneg_right hw1Q (le_of_lt (zpow_pos (by norm_num) _))

/-- Upper magnitude bound: `fl` does not push a value above a power of two
bounding it (for exponents above the subnormal range). -/
theorem fl_upper (q : ℚ) (b : ℤ) (hb : -1021 ≤ b) (h : |q| ≤ (2:ℚ) ^ b) :
    |fl q| ≤ (2:ℚ) ^ b := by
  have h2ne : (2:ℚ) ≠ 0 := by norm_num
  by_cases hq : q = 0
  · rw [hq, fl_zero, abs_zero]
    exact le_of_lt (zpow_pos (by norm_num) b)
  obtain ⟨hel, heh⟩ := ilog2_spec q hq
  by_cases he : ilog2 q < -1022
  · -- subnormal: |fl q| ≤ |q| + 2^-1075 < 2^-1021 ≤ 2^b
    rw [fl_eq_subnormal q hq he]
    have hd2 := (abs_le.mp (rne_dist (|q| * (2:ℚ) ^ (1074:ℤ)))).2
    have hw0 : (0:ℚ) ≤ (rne (|q| * (2:ℚ) ^ (1074:ℤ)) : ℚ) := by
      have hnn : (0:ℚ) ≤ |q| * (2:ℚ) ^ (1074:ℤ) :=
        mul_nonneg (abs_nonneg q) (le_of_lt (zpow_pos (by norm_num) _))
      exact_mod_cast rne_nonneg _ hnn
    have habs : |(if 0 < q then (1:ℚ) else -1) *
        (rne (|q| * (2:ℚ) ^ (1074:ℤ)) : ℚ) * (2:ℚ) ^ (-1074:ℤ)| =
        (rne (|q| * (2:ℚ) ^ (1074:ℤ)) : ℚ) * (2:ℚ) ^ (-1074:ℤ) := by
      rw [abs_mul, abs_mul, abs_of_nonneg hw0,
        abs_of_pos (zpow_pos (show (0:ℚ) < 2 by norm_num) _)]
      congr 1
      split_ifs <;> norm_num
    rw [habs]
    have hqs : |q| < (2:ℚ) ^ (-1022:ℤ) :=
      lt_of_lt_of_le heh (zpow_le_zpow_right₀ (by norm_num) (by omega))
    have hscale : (rne (|q| * (2:ℚ) ^ (1074:ℤ)) : ℚ) ≤ |q| * (2:ℚ) ^ (1074:ℤ) + 1/2 := by
      linarith
    calc (rne (|q| * (2:ℚ) ^ (1074:ℤ)) : ℚ) * (2:ℚ) ^ (-1074:ℤ)
        ≤ (|q| * (2:ℚ) ^ (1074:ℤ) + 1/2) * (2:ℚ) ^ (-1074:ℤ) :=
          mul_le_mul_of_nonneg_right hscale (le_of_lt (zpow_pos (by norm_num) _))
      _ = |q| + (1/2) * (2:ℚ) ^ (-1074:ℤ) := by
          rw [add_mul, mul_assoc, ← zpow_add₀ h2ne]
          norm_num
      _ ≤ (2:ℚ) ^ (-1022:ℤ) + (2:ℚ) ^ (-1022:ℤ) := by
          have h1 : (1/2 : ℚ) * (2:ℚ) ^ (-1074:ℤ) ≤ (2:ℚ) ^ (-1022:ℤ) := by
            have h2 : ((2:ℚ) ^ (-1074:ℤ)) ≤ (2:ℚ) ^ (-1022:ℤ) :=
              zpow_le_zpow_right₀ (by norm_num) (by omega)
            nlinarith [zpow_pos (show (0:ℚ) < 2 by norm_num) (-1074:ℤ)]
          exact add_le_add (le_of_lt hqs) h1
      _ = (2:ℚ) ^ (-1021:ℤ) := by
          rw [show ((-1021):ℤ) = 1 + -1022 by ring, zpow_add₀ h2ne]
          norm_num
      _ ≤ (2:ℚ) ^ b := zpow_le_zpow_right₀ (by norm_num) (by omega)
  · have hbe : ilog2 q ≤ b := by
      have h2 := lt_of_le_of_lt hel (lt_of_le_of_lt h
        (zpow_lt_zpow_right₀ (show (1:ℚ) < 2 by norm_num) (by omega : b < b + 1)))
      have h3 := (zpow_lt_zpow_iff_right₀ (show (1:ℚ) < 2 by norm_num)).mp h2
      omega
    rw [abs_fl_normal q hq he]
    by_cases hcase : ilog2 q = b
    · -- |q| = 2^b exactly, and fl fixes it
      have hqeq : |q| = (2:ℚ) ^ b := le_antisymm h (by rw [← hcase]; exact hel)
      have hscaled : |q| * (2:ℚ) ^ (52 - ilog2 q) = (((2:ℤ) ^ 52 : ℤ) : ℚ) := by
        rw [hqeq, hcase, ← zpow_add₀ h2ne, show (b + (52 - b) : ℤ) = 52 by ring, q252]
      rw [hscaled, rne_intCast, hcase, q252, ← zpow_add₀ h2ne,
        show ((52:ℤ) + (b - 52)) = b by ring]
    · obtain ⟨_, hw2⟩ := fl_normal_mantissa q hq
      have hw2Q : (rne (|q| * (2:ℚ) ^ (52 - ilog2 q)) : ℚ) ≤ (((2:ℤ) ^ 53 : ℤ) : ℚ) := by
        exact_mod_cast hw2
      have hn53 : (((2:ℤ) ^ 53 : ℤ) : ℚ) = (2:ℚ) ^ (53:ℤ) := by push_cast; norm_num
      calc (rne (|q| * (2:ℚ) ^ (52 - ilog2 q)) : ℚ) * (2:ℚ) ^ (ilog2 q - 52)
          ≤ (2:ℚ) ^ (53:ℤ) * (2:ℚ) ^ (ilog2 q - 52) := by
            rw [← hn53]
            exact mul_le_mul_of_nonneg_right hw2Q (le_of_lt (zpow_pos (by norm_num) _))
        _ = (2:ℚ) ^ (ilog2 q + 1) := by rw [← zpow_add₀ h2ne]; ring_nf
        _ ≤ (2:ℚ) ^ b := zpow_le_zpow_right₀ (by norm_num) (by omega)

/-- `fl` preserves nonnegativity. -/
theorem fl_nonneg (q : ℚ) (h : 0 ≤ q) : 0 ≤ fl q := by
  by_cases hq : q = 0
  · rw [hq, fl_zero]
  have hpos : 0 < q := lt_of_le_of_ne h (Ne.symm hq)
  have habs : (0:ℚ) ≤ |q| := abs_nonneg q
  by_cases he : ilog2 q < -1022
  · rw [fl_eq_subnormal q hq he, if_pos hpos]
    have h1 : (0:ℤ) ≤ rne (|q| * (2:ℚ) ^ (1074:ℤ)) :=
      rne_nonneg _ (mul_nonneg habs (le_of_lt (zpow_pos (by norm_num) _)))
    have h2 : (0:ℚ) ≤ (rne (|q| * (2:ℚ) ^ (1074:ℤ)) : ℚ) := by exact_mod_cast h1
    have h3 : (0:ℚ) ≤ (2:ℚ) ^ (-1074:ℤ) := le_of_lt (zpow_pos (by norm_num) _)
    nlinarith
  · rw [fl_eq_normal q hq he, if_pos hpos]
    have h1 : (0:ℤ) ≤ rne (|q| * (2:ℚ) ^ (52 - ilog2 q)) :=
      rne_nonneg _ (mul_nonneg habs (le_of_lt (zpow_pos (by norm_num) _)))
    have h2 : (0:ℚ) ≤ (rne (|q| * (2:ℚ) ^ (52 - ilog2 q)) : ℚ) := by exact_mod_cast h1
    have h3 : (0:ℚ) ≤ (2:ℚ) ^ (ilog2 q - 52:ℤ) := le_of_lt (zpow_pos (by norm_num) _)
    nlinarith

/-- `fl` is exact on integers of at most 53 bits. -/
theorem fl_int (k : ℤ) (hk : |k| ≤ 2 ^ 53) : fl (k:ℚ) = (k:ℚ) := by
  have h := fl_exact k 0 hk (by norm_num)
  simpa using h

/-- Half-ulp error bound for `fl` in the normal range. -/
theorem fl_err (q : ℚ) (hq : q ≠ 0) (he : ¬(ilog2 q < -1022)) :
    |fl q - q| ≤ (2:ℚ) ^ (ilog2 q - 53) := by
  have h2ne : (2:ℚ) ≠ 0 := by norm_num
  rw [fl_eq_normal q hq he]
  set e := ilog2 q with hedef
  set w := rne (|q| * (2:ℚ) ^ (52 - e)) with hwdef
  set s : ℚ := if 0 < q then (1:ℚ) else -1 with hsdef
  have hqv : s * |q| = q := sign_mul_abs_self q hq
  have hzz : (2:ℚ) ^ (52 - e : ℤ) * (2:ℚ) ^ (e - 52 : ℤ) = 1 := by
    rw [← zpow_add₀ h2ne, show (52 - e + (e - 52) : ℤ) = 0 by ring, zpow_zero]
  have key : s * (w:ℚ) * (2:ℚ) ^ (e - 52) - q =
      s * ((w:ℚ) - |q| * (2:ℚ) ^ (52 - e)) * (2:ℚ) ^ (e - 52) := by
    linear_combination s * |q| * hzz + hqv
  rw [key, abs_mul, abs_mul]
  have hs : |s| = 1 := by rw [hsdef]; split_ifs <;> norm_num
  rw [hs, one_mul, abs_of_pos (zpow_pos (show (0:ℚ) < 2 by norm_num) _)]
  have hd : |(w:ℚ) - |q| * (2:ℚ) ^ (52 - e)| ≤ 1/2 := rne_dist _
  calc |(w:ℚ) - |q| * (2:ℚ) ^ (52 - e)| * (2:ℚ) ^ (e - 52)
      ≤ (1/2) * (2:ℚ) ^ (e - 52) :=
        mul_le_mul_of_nonneg_right hd (le_of_lt (zpow_pos (by norm_num) _))
    _ = (2:ℚ) ^ (e - 53) := by
        rw [show (e - 53 : ℤ) = -1 + (e - 52) by ring, zpow_add₀ h2ne]
        norm_num

/-- Error bound specialised to values in `[1, 2^22]`: at most `1/4`. -/
theorem fl_err_small (q : ℚ) (h1 : 1 ≤ q) (h2 : q ≤ (2:ℚ) ^ (22:ℤ)) :
    |fl q - q| ≤ 1/4 := by
  have hq : q ≠ 0 := by intro h; rw [h] at h1; norm_num at h1
  have habs : |q| = q := abs_of_pos (by linarith)
  obtain ⟨hel, heh⟩ := ilog2_spec q hq
  have he0 : 0 ≤ ilog2 q := by
    by_contra hneg
    push_neg at hneg
    have : (2:ℚ) ^ (ilog2 q + 1) ≤ (2:ℚ) ^ (0:ℤ) :=
      zpow_le_zpow_right₀ (by norm_num) (by omega)
    rw [zpow_zero] at this
    rw [habs] at heh
    linarith
  have he22 : ilog2 q ≤ 22 := by
    rw [habs] at hel
    have h3 := lt_of_le_of_lt hel (lt_of_le_of_lt h2
      (zpow_lt_zpow_right₀ (show (1:ℚ) < 2 by norm_num) (by omega : (22:ℤ) < 23)))
    have h4 := (zpow_lt_zpow_iff_right₀ (show (1:ℚ) < 2 by norm_num)).mp h3
    omega
  have herr := fl_err q hq (by omega)
  calc |fl q - q| ≤ (2:ℚ) ^ (ilog2 q - 53) := herr
    _ ≤ (2:ℚ) ^ (-31:ℤ) := zpow_le_zpow_right₀ (by norm_num) (by omega)
    _ ≤ 1/4 := by norm_num

/-- In the binade `[2^52, 2^53)`, `fl` is `rne`. -/
theorem fl_binade52 (Y : ℚ) (h1 : (2:ℚ) ^ (52:ℤ) ≤ Y) (h2 : Y < (2:ℚ) ^ (53:ℤ)) :
    fl Y = (rne Y : ℚ) := by
  have hpos : (0:ℚ) < Y := lt_of_lt_of_le (zpow_pos (by norm_num) _) h1
  have hq : Y ≠ 0 := ne_of_gt hpos
  have habs : |Y| = Y := abs_of_pos hpos
  have hil : ilog2 Y = 52 := by
    apply ilog2_unique
    · rw [habs]; exact h1
    · rw [habs, show ((52:ℤ) + 1) = 53 by ring]; exact h2
  rw [fl_eq_normal Y hq (by rw [hil]; norm_num), hil, if_pos hpos, habs]
  norm_num

/-- `TWO_MANT_DIG` is `2^52`. -/
theorem TWO_MANT_DIG_eq : loki.TWO_MANT_DIG = (2:ℚ) ^ (52:ℤ) := by
  rw [loki.TWO_MANT_DIG]
  norm_num

/-- `loki::round` of zero is zero. -/
theorem loki_round_zero : loki.round 0 = 0 := by
  rw [loki.round]
  norm_num

/-- `loki::round` returns 0 on `(-1/2, 1/2)`. -/
theorem loki_round_small (u : ℚ) (h : |u| < 1/2) : loki.round u = 0 := by
  rw [loki.round]
  rcases lt_trichotomy u 0 with hu | hu | hu
  · rw [if_neg (by linarith), if_pos hu, if_pos]
    have := abs_lt.mp h
    rw [show ((-0.5 : ℚ)) = -(1/2) by norm_num]
    linarith
  · rw [hu]; norm_num
  · rw [if_pos hu, if_pos]
    have := abs_lt.mp h
    rw [show ((0.5 : ℚ)) = 1/2 by norm_num]
    linarith

/-- Unfolding of the positive branch of `loki::round`. -/
theorem round_pos_branch (z : ℚ) (h0 : 0 < z) (h1 : ¬(z < 1/2)) (h2 : z < loki.TWO_MANT_DIG) :
    loki.round z =
      (if fl (z + 1/2) < fl (fl (fl (z + 1/2) + loki.TWO_MANT_DIG) - loki.TWO_MANT_DIG)
       then fl (fl (fl (fl (z + 1/2) + loki.TWO_MANT_DIG) - loki.TWO_MANT_DIG) - 1)
       else fl (fl (fl (z + 1/2) + loki.TWO_MANT_DIG) - loki.TWO_MANT_DIG)) := by
  rw [loki.round]
  rw [show ((0.5 : ℚ)) = 1/2 by norm_num]
  rw [if_pos h0, if_neg h1, if_pos h2]

/-- The positive branch of `loki::round` on a representable value in
`[1/2, 2^21]` returns an integer within `3/2` of its argument, and within
`1/2` whenever the first addition `z + 0.5` was exact. -/
theorem round_pos_chain (u : ℚ) (h1 : 1/2 ≤ u) (h2 : u ≤ (2:ℚ) ^ (21:ℤ)) :
    ∃ N : ℤ, loki.round u = (N:ℚ) ∧ |(N:ℚ) - u| ≤ 3/2 ∧
      (fl (u + 1/2) = u + 1/2 → |(N:ℚ) - u| ≤ 1/2) := by
  have h2ne : (2:ℚ) ≠ 0 := by norm_num
  have h21 : (2:ℚ) ^ (21:ℤ) < (2:ℚ) ^ (52:ℤ) :=
    zpow_lt_zpow_right₀ (by norm_num) (by norm_num)
  have hbr := round_pos_branch u (by linarith) (by linarith) (by rw [TWO_MANT_DIG_eq]; linarith)
  rw [TWO_MANT_DIG_eq] at hbr
  set y := fl (u + 1/2) with hydef
  -- bounds for y
  have hu1 : (1:ℚ) ≤ u + 1/2 := by linarith
  have hu2 : u + 1/2 ≤ (2:ℚ) ^ (22:ℤ) := by
    have : (2:ℚ) ^ (21:ℤ) + 1/2 ≤ (2:ℚ) ^ (22:ℤ) := by norm_num
    linarith
  have hy1 : (1:ℚ) ≤ y := by
    have hl := fl_lower (u + 1/2) 0 (by norm_num) (by rw [abs_of_pos (by linarith)]; simpa using hu1)
    have hnn := fl_nonneg (u + 1/2) (by linarith)
    rw [zpow_zero] at hl
    rw [abs_of_nonneg hnn] at hl
    exact hl
  have hy2 : y ≤ (2:ℚ) ^ (22:ℤ) := by
    have hup := fl_upper (u + 1/2) 22 (by norm_num) (by rw [abs_of_pos (by linarith)]; exact hu2)
    have hnn := fl_nonneg (u + 1/2) (by linarith)
    rw [abs_of_nonneg hnn] at hup
    exact hup
  have hyerr : |y - (u + 1/2)| ≤ 1/4 := fl_err_small (u + 1/2) hu1 hu2
  -- z1 = rne (y + 2^52)
  have hY1 : (2:ℚ) ^ (52:ℤ) ≤ y + (2:ℚ) ^ (52:ℤ) := by linarith
  have hY2 : y + (2:ℚ) ^ (52:ℤ) < (2:ℚ) ^ (53:ℤ) := by
    have h22 : (2:ℚ) ^ (22:ℤ) + (2:ℚ) ^ (52:ℤ) < (2:ℚ) ^ (53:ℤ) := by norm_num
    linarith
  have hz1 : fl (y + (2:ℚ) ^ (52:ℤ)) = (rne (y + (2:ℚ) ^ (52:ℤ)) : ℚ) := fl_binade52 _ hY1 hY2
  set W := rne (y + (2:ℚ) ^ (52:ℤ)) with hWdef
  have hWd1 := (abs_le.mp (rne_dist (y + (2:ℚ) ^ (52:ℤ)))).1
  have hWd2 := (abs_le.mp (rne_dist (y + (2:ℚ) ^ (52:ℤ)))).2
  rw [← hWdef] at hWd1 hWd2
  -- w' = W - 2^52 as an integer
  set w : ℤ := W - 2 ^ 52 with hwdef
  have hwq : (w:ℚ) = (W:ℚ) - (2:ℚ) ^ (52:ℤ) := by
    rw [hwdef]
    push_cast
    norm_num
  have hwy1 : y - 1/2 ≤ (w:ℚ) := by rw [hwq]; linarith
  have hwy2 : (w:ℚ) ≤ y + 1/2 := by rw [hwq]; linarith
  have hwbound : |w| ≤ 2 ^ 53 := by
    have hb1 : (w:ℚ) ≤ (2:ℚ) ^ (22:ℤ) + 1/2 := by linarith
    have hb2 : (1/2 : ℚ) ≤ (w:ℚ) := by linarith
    have hb3 : (w:ℚ) ≤ (((2:ℤ) ^ 53 : ℤ) : ℚ) := by
      rw [q253]
      have : (2:ℚ) ^ (22:ℤ) + 1/2 ≤ (2:ℚ) ^ (53:ℤ) := by norm_num
      linarith
    have hb4 : w ≤ (2:ℤ) ^ 53 := by exact_mod_cast hb3
    have hb5 : ((0:ℤ) : ℚ) ≤ (w:ℚ) := by push_cast; linarith
    have hb6 : (0:ℤ) ≤ w := by exact_mod_cast hb5
    rw [abs_of_nonneg hb6]
    exact hb4
  -- z2 = w exactly
  have hz2 : fl ((W:ℚ) - (2:ℚ) ^ (52:ℤ)) = (w:ℚ) := by
    rw [← hwq, fl_int w hwbound]
  -- the two branches
  rw [hz1, hz2] at hbr
  by_cases hcmp : y < (w:ℚ)
  · rw [if_pos hcmp] at hbr
    have hw1bound : |w - 1| ≤ 2 ^ 53 := by
      have h1 : (0:ℚ) ≤ (w:ℚ) := by linarith
      have h2 : ((0:ℤ):ℚ) ≤ (w:ℚ) := by push_cast; linarith
      have h3 : (0:ℤ) ≤ w := by exact_mod_cast h2
      have h4 := abs_le.mp hwbound
      rw [abs_le]
      omega
    have hfl : fl ((w:ℚ) - 1) = ((w - 1 : ℤ):ℚ) := by
      rw [show ((w:ℚ) - 1) = ((w - 1 : ℤ):ℚ) by push_cast; ring]
      exact fl_int _ hw1bound
    rw [hfl] at hbr
    refine ⟨w - 1, hbr, ?_, ?_⟩
    · have hye := abs_le.mp hyerr
      rw [abs_le]
      push_cast
      constructor <;> linarith
    · intro hex
      have hyu : y = u + 1/2 := hex
      rw [abs_le]
      push_cast
      constructor <;> linarith
  · rw [if_neg hcmp] at hbr
    push_neg at hcmp
    refine ⟨w, hbr, ?_, ?_⟩
    · have hye := abs_le.mp hyerr
      rw [abs_le]
      constructor <;> linarith
    · intro hex
      have hyu : y = u + 1/2 := hex
      rw [abs_le]
      constructor <;> linarith

/-- `loki::round` is odd on positive arguments: the negative branch mirrors
the positive branch operation for operation. -/
theorem round_neg_pos (x : ℚ) (hx : 0 < x) : loki.round (-x) = - loki.round x := by
  unfold loki.round
  simp only [show ((0.5:ℚ)) = 1/2 from by norm_num]
  rw [if_neg (by linarith : ¬(0 < -x)), if_pos (by linarith : -x < 0), if_pos hx]
  by_cases hhalf : x < 1/2
  · rw [if_pos (by linarith : -(1/2) < -x), if_pos hhalf]
    norm_num
  · rw [if_neg (by simp only [not_lt] at hhalf ⊢; linarith : ¬(-(1/2) < -x)), if_neg hhalf]
    by_cases hbig : x < loki.TWO_MANT_DIG
    · rw [if_pos (by linarith : -loki.TWO_MANT_DIG < -x), if_pos hbig]
      have e1 : fl (-x - 1/2) = - fl (x + 1/2) := by
        rw [show (-x - 1/2 : ℚ) = -(x + 1/2) by ring, fl_neg]
      rw [e1]
      have e2 : fl (-fl (x + 1/2) - loki.TWO_MANT_DIG) =
          - fl (fl (x + 1/2) + loki.TWO_MANT_DIG) := by
        rw [show (-fl (x + 1/2) - loki.TWO_MANT_DIG : ℚ) =
          -(fl (x + 1/2) + loki.TWO_MANT_DIG) by ring, fl_neg]
      rw [e2]
      have e3 : fl (-fl (fl (x + 1/2) + loki.TWO_MANT_DIG) + loki.TWO_MANT_DIG) =
          - fl (fl (fl (x + 1/2) + loki.TWO_MANT_DIG) - loki.TWO_MANT_DIG) := by
        rw [show (-fl (fl (x + 1/2) + loki.TWO_MANT_DIG) + loki.TWO_MANT_DIG : ℚ) =
          -(fl (fl (x + 1/2) + loki.TWO_MANT_DIG) - loki.TWO_MANT_DIG) by ring, fl_neg]
      rw [e3]
      by_cases hc : fl (x + 1/2) < fl (fl (fl (x + 1/2) + loki.TWO_MANT_DIG) - loki.TWO_MANT_DIG)
      · rw [if_pos (by linarith :
          - fl (fl (fl (x + 1/2) + loki.TWO_MANT_DIG) - loki.TWO_MANT_DIG) < - fl (x + 1/2)),
          if_pos hc]
        rw [show (- fl (fl (fl (x + 1/2) + loki.TWO_MANT_DIG) - loki.TWO_MANT_DIG) + 1 : ℚ) =
          -(fl (fl (fl (x + 1/2) + loki.TWO_MANT_DIG) - loki.TWO_MANT_DIG) - 1) by ring, fl_neg]
      · rw [if_neg (by simp only [not_lt] at hc ⊢; linarith :
          ¬(- fl (fl (fl (x + 1/2) + loki.TWO_MANT_DIG) - loki.TWO_MANT_DIG) < - fl (x + 1/2))),
          if_neg hc]
    · rw [if_neg (by simp only [not_lt] at hbig ⊢; linarith :
        ¬(-loki.TWO_MANT_DIG < -x)), if_neg hbig]

/-- `loki::round` commutes with negation (`MINUS_ZERO` is identified with 0
in the ℚ model). -/
theorem round_neg (x : ℚ) : loki.round (-x) = - loki.round x := by
  rcases lt_trichotomy x 0 with hx | hx | hx
  · have h := round_neg_pos (-x) (by linarith)
    rw [neg_neg] at h
    rw [h]
    ring
  · rw [hx, neg_zero, loki_round_zero, neg_zero]
  · exact round_neg_pos x hx

/-- `loki::round` of a representable-or-not value of magnitude at most `2^19`
returns an integer of magnitude at most `2^21`. -/
theorem round_int_bounded (u : ℚ) (hu : |u| ≤ (2:ℚ) ^ (19:ℤ)) :
    ∃ N : ℤ, loki.round u = (N:ℚ) ∧ |N| ≤ 2 ^ 21 := by
  by_cases hsm : |u| < 1/2
  · exact ⟨0, by simpa using loki_round_small u hsm, by norm_num⟩
  push_neg at hsm
  have h19 : (2:ℚ) ^ (19:ℤ) ≤ (2:ℚ) ^ (21:ℤ) := by norm_num
  have habs : ∀ N : ℤ, |(N:ℚ)| ≤ (2:ℚ) ^ (19:ℤ) + 3/2 → |N| ≤ 2 ^ 21 := by
    intro N h
    have h1 : |(N:ℚ)| ≤ (((2:ℤ) ^ 19 + 2 : ℤ) : ℚ) := by
      have h0 : ((2:ℚ) ^ (19:ℤ)) = (((2:ℤ) ^ 19 : ℤ) : ℚ) := by norm_num
      rw [h0] at h
      push_cast at h ⊢
      linarith
    rw [← Int.cast_abs] at h1
    have h2 : |N| ≤ (2:ℤ) ^ 19 + 2 := by exact_mod_cast h1
    omega
  rcases le_or_lt 0 u with hsign | hsign
  · have hpos : 1/2 ≤ u := by rwa [abs_of_nonneg hsign] at hsm
    have hu19 : u ≤ (2:ℚ) ^ (19:ℤ) := by rwa [abs_of_nonneg hsign] at hu
    have hub : u ≤ (2:ℚ) ^ (21:ℤ) := le_trans hu19 h19
    obtain ⟨N, hr, hd, _⟩ := round_pos_chain u hpos hub
    refine ⟨N, hr, ?_⟩
    apply habs
    have hdd := abs_le.mp hd
    rw [abs_le]
    constructor <;> linarith
  · have hneg : 1/2 ≤ -u := by rwa [abs_of_neg hsign] at hsm
    have hu19 : -u ≤ (2:ℚ) ^ (19:ℤ) := by rwa [abs_of_neg hsign] at hu
    have hub : -u ≤ (2:ℚ) ^ (21:ℤ) := le_trans hu19 h19
    obtain ⟨N, hr, hd, _⟩ := round_pos_chain (-u) hneg hub
    have h3 : loki.round u = ((-N : ℤ):ℚ) := by
      have h4 := round_neg (-u)
      rw [neg_neg] at h4
      rw [h4, hr]
      push_cast
      ring
    refine ⟨-N, h3, ?_⟩
    apply habs
    have hdd := abs_le.mp hd
    rw [abs_le]
    push_cast
    constructor <;> linarith

/-- `loki::round` on an exactly representable multiple of `1/256` of
magnitude at most `2^13` is nearest-integer rounding: distance at most 1/2. -/
theorem round_div256 (k : ℤ) (hk : |k| ≤ 2 ^ 21) :
    ∃ N : ℤ, loki.round ((k:ℚ) * (2:ℚ) ^ (-8:ℤ)) = (N:ℚ) ∧
      |(N:ℚ) - (k:ℚ) * (2:ℚ) ^ (-8:ℤ)| ≤ 1/2 := by
  set v : ℚ := (k:ℚ) * (2:ℚ) ^ (-8:ℤ) with hvdef
  have hka := abs_le.mp hk
  have hkQ : |(k:ℚ)| ≤ (2:ℚ) ^ (21:ℤ) := by
    have h1 : ((2:ℚ) ^ (21:ℤ)) = (((2:ℤ) ^ 21 : ℤ) : ℚ) := by norm_num
    rw [h1, ← Int.cast_abs]
    exact_mod_cast hk
  have hvabs : |v| ≤ (2:ℚ) ^ (13:ℤ) := by
    rw [hvdef, abs_mul, abs_of_pos (zpow_pos (show (0:ℚ) < 2 by norm_num) _)]
    calc |(k:ℚ)| * (2:ℚ) ^ (-8:ℤ) ≤ (2:ℚ) ^ (21:ℤ) * (2:ℚ) ^ (-8:ℤ) :=
          mul_le_mul_of_nonneg_right hkQ (le_of_lt (zpow_pos (by norm_num) _))
      _ = (2:ℚ) ^ (13:ℤ) := by
          rw [← zpow_add₀ (show (2:ℚ) ≠ 0 by norm_num)]
          norm_num
  by_cases hsm : |v| < 1/2
  · refine ⟨0, by simpa using loki_round_small v hsm, ?_⟩
    rw [show ((0:ℤ):ℚ) - v = -v by push_cast; ring, abs_neg]
    linarith
  push_neg at hsm
  have hexact : ∀ m : ℤ, |m| ≤ 2 ^ 21 → fl ((m:ℚ) * (2:ℚ) ^ (-8:ℤ) + 1/2) =
      (m:ℚ) * (2:ℚ) ^ (-8:ℤ) + 1/2 := by
    intro m hm
    have heq : (m:ℚ) * (2:ℚ) ^ (-8:ℤ) + 1/2 = ((m + 128 : ℤ):ℚ) * (2:ℚ) ^ (-8:ℤ) := by
      push_cast
      rw [add_mul]
      norm_num
    rw [heq]
    apply fl_exact
    · have := abs_le.mp hm
      rw [abs_le]
      constructor <;> omega
    · norm_num
  rcases le_or_lt 0 v with hsign | hsign
  · have hpos : 1/2 ≤ v := by rwa [abs_of_nonneg hsign] at hsm
    have hub : v ≤ (2:ℚ) ^ (21:ℤ) := by
      have := (abs_le.mp hvabs).2
      have h13 : (2:ℚ) ^ (13:ℤ) ≤ (2:ℚ) ^ (21:ℤ) := by norm_num
      linarith
    obtain ⟨N, hr, _, hdx⟩ := round_pos_chain v hpos hub
    exact ⟨N, hr, hdx (hexact k hk)⟩
  · have hneg : 1/2 ≤ -v := by rwa [abs_of_neg hsign] at hsm
    have hub : -v ≤ (2:ℚ) ^ (21:ℤ) := by
      have := (abs_le.mp hvabs).1
      have h13 : (2:ℚ) ^ (13:ℤ) ≤ (2:ℚ) ^ (21:ℤ) := by norm_num
      linarith
    have hnegv : -v = ((-k : ℤ):ℚ) * (2:ℚ) ^ (-8:ℤ) := by
      rw [hvdef]
      push_cast
      ring
    obtain ⟨N, hr, _, hdx⟩ := round_pos_chain (-v) hneg hub
    rw [hnegv] at hr
    have hd := hdx (by rw [hnegv]; exact hexact (-k) (by rwa [abs_neg]))
    have h3 : loki.round v = ((-N : ℤ):ℚ) := by
      have h4 := round_neg (-v)
      rw [neg_neg] at h4
      rw [hnegv] at h4
      rw [h4, hr]
      push_cast
      ring
    refine ⟨-N, h3, ?_⟩
    rw [hnegv] at hd
    have h5 : |(-N:ℤ) - v| = |(N:ℚ) - ((-k:ℤ):ℚ) * (2:ℚ) ^ (-8:ℤ)| := by
      rw [show ((-N:ℤ):ℚ) - v = -((N:ℚ) - ((-k:ℤ):ℚ) * (2:ℚ) ^ (-8:ℤ)) by
        rw [hvdef]; push_cast; ring, abs_neg]
    rw [← h5] at hd
    exact_mod_cast hd

/-- The C cast `(int)` is the identity on integer-valued doubles. -/
theorem c_trunc_intCast (N : ℤ) : c_trunc (N:ℚ) = N := by
  unfold c_trunc
  split_ifs with h
  · exact Int.floor_intCast N
  · rw [show (-(N:ℚ)) = ((-N : ℤ):ℚ) by push_cast; ring, Int.floor_intCast]
    ring

/-- The double `nm` computed by `loki::exp2` in the non-saturating range is
integer-valued with magnitude at most `2^21`. -/
theorem exp2_nm_int (x : ℚ) (hlo : -1075 ≤ x) (hhi : x ≤ 1024) :
    ∃ N : ℤ, loki.exp2_nm x = (N:ℚ) ∧ |N| ≤ 2 ^ 21 := by
  have hxabs : |x| ≤ 1075 := abs_le.mpr ⟨by linarith, by linarith⟩
  have hx256 : |x * 256| ≤ (2:ℚ) ^ (19:ℤ) := by
    rw [abs_mul, show |(256:ℚ)| = 256 by norm_num]
    calc |x| * 256 ≤ 1075 * 256 :=
          mul_le_mul_of_nonneg_right hxabs (by norm_num)
      _ ≤ (2:ℚ) ^ (19:ℤ) := by norm_num
  have hu : |loki.exp2_x256 x| ≤ (2:ℚ) ^ (19:ℤ) := by
    rw [loki.exp2_x256]
    exact fl_upper (x * 256) 19 (by norm_num) hx256
  obtain ⟨N, hr, hb⟩ := round_int_bounded _ hu
  exact ⟨N, by rw [loki.exp2_nm]; exact hr, hb⟩

/-- C9: in the non-saturating range of `loki::exp2`, the decomposition
integers satisfy `m ∈ [-128, 128]`, so the lookup index `128 + m` lies in
`[0, 256]` and the access into the 257-entry `exp_table` is in bounds. -/
theorem c9_exp2_table_index_in_bounds (x : ℚ) (hlo : -1075 ≤ x) (hhi : x ≤ 1024) :
    -128 ≤ loki.exp2_m x ∧ loki.exp2_m x ≤ 128 ∧
      0 ≤ 128 + loki.exp2_m x ∧ 128 + loki.exp2_m x ≤ 256 ∧
      (128 + loki.exp2_m x).toNat < loki.exp_table.length := by
  obtain ⟨N, hnm, hNb⟩ := exp2_nm_int x hlo hhi
  have h256 : fl ((1:ℚ)/256) = ((1:ℤ):ℚ) * (2:ℚ) ^ (-8:ℤ) := by
    rw [show ((1:ℚ)/256) = ((1:ℤ):ℚ) * (2:ℚ) ^ (-8:ℤ) by norm_num]
    exact fl_exact 1 (-8) (by norm_num) (by norm_num)
  have hprod : fl (loki.exp2_nm x * fl ((1:ℚ)/256)) = (N:ℚ) * (2:ℚ) ^ (-8:ℤ) := by
    rw [hnm, h256, show ((N:ℚ)) * (((1:ℤ):ℚ) * (2:ℚ) ^ (-8:ℤ)) = (N:ℚ) * (2:ℚ) ^ (-8:ℤ) by
      push_cast; ring]
    exact fl_exact N (-8) (le_trans hNb (by norm_num)) (by norm_num)
  obtain ⟨n0, hn0, hdist⟩ := round_div256 N hNb
  have hn : loki.exp2_n x = n0 := by
    rw [loki.exp2_n, hprod, hn0, c_trunc_intCast]
  have hm : loki.exp2_m x = N - 256 * n0 := by
    rw [loki.exp2_m, hn, hnm, c_trunc_intCast]
  have hmb : |N - 256 * n0| ≤ 128 := by
    have h1 : ((N - 256 * n0 : ℤ) : ℚ) = -256 * ((n0:ℚ) - (N:ℚ) * (2:ℚ) ^ (-8:ℤ)) := by
      push_cast
      have h8 : ((2:ℚ) ^ (-8:ℤ)) * 256 = 1 := by norm_num
      linear_combination (N:ℚ) * h8
    have h2 : |((N - 256 * n0 : ℤ) : ℚ)| ≤ 128 := by
      rw [h1, abs_mul, show |(-256:ℚ)| = 256 by norm_num]
      calc 256 * |(n0:ℚ) - (N:ℚ) * (2:ℚ) ^ (-8:ℤ)| ≤ 256 * (1/2) :=
            mul_le_mul_of_nonneg_left hdist (by norm_num)
        _ = 128 := by norm_num
    rw [← Int.cast_abs] at h2
    exact_mod_cast h2
  have hlen : loki.exp_table.length = 257 := by rfl
  have hmb' := abs_le.mp hmb
  refine ⟨by omega, by omega, by omega, by omega, ?_⟩
  rw [hlen]
  omega

/-- Witness for C9 at the concrete input `0`. -/
theorem c9_exp2_table_index_in_bounds_witness :
    -128 ≤ loki.exp2_m 0 ∧ loki.exp2_m 0 ≤ 128 ∧ 0 ≤ 128 + loki.exp2_m 0 ∧
      128 + loki.exp2_m 0 ≤ 256 ∧ (128 + loki.exp2_m 0).toNat < loki.exp_table.length :=
  c9_exp2_table_index_in_bounds 0 (by norm_num) (by norm_num)
